import Mathlib

/-
  Verification development for the ru-corrector Russian text-correction
  pipeline.

  The development shallowly embeds the correction core:
  * `TextEdit` and its conflict relation (src/ru_corrector/core/models.py),
  * the orchestrating `CorrectionEngine` (src/ru_corrector/core/engine.py):
    `normalize`, `apply_edits`, `deduplicate_edits`, `apply_legal_rules`,
    `apply_strict_rules`, `apply_typography`, `correct`,
  * the legacy pipeline (core_corrector.py, typograph_ru.py, openai_client.py),
  * the HTML diff renderer (services/diff_view.py).

  Strings are modelled as their character lists (`String.data`); Python
  regular-expression passes are embedded as explicit left-to-right scanners
  with the same leftmost, non-overlapping match semantics as `re.sub` /
  `re.finditer` for the concrete patterns used by the code.  External
  collaborators (the LanguageTool network client, the OpenAI client, and
  difflib's opcode computation) are modelled as parameters constrained by
  their documented interfaces.
-/

namespace RuCorrector

/-! ## Edit model (src/ru_corrector/core/models.py) -/

/-- One proposed change to a text buffer.  Mirrors the `TextEdit` dataclass:
fields `offset`, `length`, `original`, `replacement`, `message`, `rule_id`.
Lean's structural equality on this type coincides with the
dataclass-generated `__eq__`, which compares *all six* fields. -/
structure TextEdit where
  offset : Nat
  length : Nat
  original : String
  replacement : String
  message : String := ""
  rule_id : String := ""
  deriving DecidableEq, Repr

/-- `TextEdit.__hash__` hashes the 4-tuple
`(offset, length, original, replacement)`; we model the hash by the key
tuple itself (hash equality is determined by key-tuple equality). -/
def TextEdit.hashKey (e : TextEdit) : Nat × Nat × String × String :=
  (e.offset, e.length, e.original, e.replacement)

/-- `TextEdit.conflicts_with`:
`not (self.offset + self.length <= other.offset or
      other.offset + other.length <= self.offset)`. -/
def TextEdit.conflicts_with (self other : TextEdit) : Bool :=
  !(decide (self.offset + self.length ≤ other.offset) ||
    decide (other.offset + other.length ≤ self.offset))

/-- The spec's conflict relation (§3): the half-open ranges
`[offset, offset+length)` share at least one position. -/
def RangesOverlap (a b : TextEdit) : Prop :=
  ∃ x : Nat, (a.offset ≤ x ∧ x < a.offset + a.length) ∧
    (b.offset ≤ x ∧ x < b.offset + b.length)

/-! ## Sorting and deduplication helpers

Python's `sorted` is a stable sort; both uses in the engine sort by the
`offset` key (ascending in `deduplicate_edits`, descending in
`apply_edits`).  We model them by stable insertion sorts: a newly scanned
element is inserted after all already-placed elements whose key does not
force it earlier, which reproduces the stable order exactly. -/

/-- Insert `e` after every element of the (ascending-sorted) accumulator
whose offset is `≤ e.offset` (stable ascending insertion). -/
def insertAsc : List TextEdit → TextEdit → List TextEdit
  | [], e => [e]
  | x :: xs, e => if x.offset ≤ e.offset then x :: insertAsc xs e else e :: x :: xs

/-- Stable ascending sort by `offset` (model of `sorted(edits, key=offset)`). -/
def sortAsc (l : List TextEdit) : List TextEdit := l.foldl insertAsc []

/-- Insert `e` after every element of the (descending-sorted) accumulator
whose offset is `≥ e.offset` (stable descending insertion). -/
def insertDesc : List TextEdit → TextEdit → List TextEdit
  | [], e => [e]
  | x :: xs, e => if e.offset ≤ x.offset then x :: insertDesc xs e else e :: x :: xs

/-- Stable descending sort by `offset`
(model of `sorted(edits, key=offset, reverse=True)`). -/
def sortDesc (l : List TextEdit) : List TextEdit := l.foldl insertDesc []

/-- Model of `list(dict.fromkeys(edits))`: keep the first occurrence of each
value, in insertion order.  Python dict keys are identified by `__eq__`
(with `__hash__` consistent with it), i.e. by all six fields here. -/
def dedupKeepFirst (seen : List TextEdit) : List TextEdit → List TextEdit
  | [] => []
  | e :: rest =>
      if e ∈ seen then dedupKeepFirst seen rest
      else e :: dedupKeepFirst (e :: seen) rest

/-! ## CorrectionEngine.apply_edits and deduplicate_edits -/

/-- One splice `result[:offset] + replacement + result[offset+length:]`
(Python slices clamp out-of-range indices, as `take`/`drop` do). -/
def splice (t : List Char) (e : TextEdit) : List Char :=
  t.take e.offset ++ e.replacement.data ++ t.drop (e.offset + e.length)

/-- `CorrectionEngine.apply_edits`: sort by offset in reverse order, then
splice each replacement into the running text. -/
def apply_edits (t : List Char) (edits : List TextEdit) : List Char :=
  match edits with
  | [] => t
  | _ => (sortDesc edits).foldl splice t

/-- `apply_edits` on `String` (the Python surface type). -/
def applyEditsStr (t : String) (edits : List TextEdit) : String :=
  ⟨apply_edits t.data edits⟩

/-- The accept-scan of `CorrectionEngine.deduplicate_edits`: walk the
sorted list, appending an edit iff it conflicts with no accepted edit. -/
def acceptScan (result : List TextEdit) : List TextEdit → List TextEdit
  | [] => result
  | e :: rest =>
      if result.any (fun accepted => e.conflicts_with accepted) then
        acceptScan result rest
      else
        acceptScan (result ++ [e]) rest

/-- `CorrectionEngine.deduplicate_edits`: drop exact duplicates
(`dict.fromkeys`), sort ascending by offset, then keep each edit iff it
conflicts with no already-kept edit. -/
def deduplicate_edits (edits : List TextEdit) : List TextEdit :=
  match edits with
  | [] => []
  | _ => acceptScan [] (sortAsc (dedupKeepFirst [] edits))

/-! ## CorrectionEngine.normalize (identical to the legacy `normalize`)

`normalize` does, in order:
1. `text.replace(NBSP, " ")`
2. `re.sub(r"[ \t]+", " ", t)` — collapse space/tab runs to one space,
3. `re.sub(r" ?\n ?", "\n", t)` — drop one space on each side of a newline,
4. `t.strip()` — strip leading/trailing Python whitespace. -/

/-- The non-breaking space character (`NBSP = " "`). -/
def nbspChar : Char := '\u00A0'

/-- Step 1: `text.replace(NBSP, " ")`. -/
def nbspToSpace (l : List Char) : List Char :=
  l.map fun c => if c = nbspChar then ' ' else c

/-- The character class `[ \t]`. -/
def isSpaceTab (c : Char) : Bool := c = ' ' || c = '\t'

/-- Step 2: `re.sub(r"[ \t]+", " ", t)` — every maximal run of spaces/tabs
becomes a single space (the run's output space is emitted at its end). -/
def collapseSpaceTab : List Char → List Char
  | [] => []
  | [c] => if isSpaceTab c then [' '] else [c]
  | a :: b :: r =>
      if isSpaceTab a then
        if isSpaceTab b then collapseSpaceTab (b :: r)
        else ' ' :: collapseSpaceTab (b :: r)
      else a :: collapseSpaceTab (b :: r)

/-- Step 3: `re.sub(r" ?\n ?", "\n", t)`.  The pattern must contain the
newline, so a match starts either at a space directly followed by a newline
or at a newline, and greedily consumes one following space.  Matches are
found leftmost and do not overlap. -/
def newlineFix : List Char → List Char
  | [] => []
  | '\n' :: ' ' :: r => '\n' :: newlineFix r
  | '\n' :: r => '\n' :: newlineFix r
  | ' ' :: '\n' :: ' ' :: r => '\n' :: newlineFix r
  | ' ' :: '\n' :: r => '\n' :: newlineFix r
  | c :: r => c :: newlineFix r

/-- Python `str.isspace` / `str.strip` whitespace characters. -/
def isPyWS (c : Char) : Bool :=
  c ∈ [' ', '\t', '\n', '\r', '\u000B', '\u000C',
       '\u001C', '\u001D', '\u001E', '\u001F', '\u0085', '\u00A0',
       '\u1680', '\u2000', '\u2001', '\u2002', '\u2003', '\u2004',
       '\u2005', '\u2006', '\u2007', '\u2008', '\u2009', '\u200A',
       '\u2028', '\u2029', '\u202F', '\u205F', '\u3000']

/-- Step 4: `t.strip()`. -/
def stripEnds (l : List Char) : List Char :=
  ((l.dropWhile isPyWS).reverse.dropWhile isPyWS).reverse

/-- `CorrectionEngine.normalize` / legacy `normalize` on character lists. -/
def normalizeL (l : List Char) : List Char :=
  stripEnds (newlineFix (collapseSpaceTab (nbspToSpace l)))

/-- `CorrectionEngine.normalize` (src/ru_corrector/core/engine.py) and the
textually identical legacy `normalize` (core_corrector.py). -/
def normalize (s : String) : String := ⟨normalizeL s.data⟩

/-! ## Specification-side view of edit application (for C8)

`renderEdits t i asc` renders, from position `i` onward, the text obtained
by replacing exactly each listed edit's span `[offset, offset+length)` with
its replacement, for an ascending, non-overlapping list of spans.  This is
the spec's description of what applying a set of edits should produce. -/

def renderEdits (t : List Char) : Nat → List TextEdit → List Char
  | i, [] => t.drop i
  | i, e :: es =>
      (t.drop i).take (e.offset - i) ++ e.replacement.data ++
        renderEdits t (e.offset + e.length) es

/-- The spans of the listed edits start at or after `i`, appear in ascending
order, and do not overlap (each next span starts at or after the previous
span's end). -/
def SpansChainFrom : Nat → List TextEdit → Prop
  | _, [] => True
  | i, e :: es => i ≤ e.offset ∧ SpansChainFrom (e.offset + e.length) es

/-- An edit is valid against a text: its span lies inside the text and
`t[offset : offset+length] == original` (the slice really is the replaced
substring, of the stated length). -/
def ValidFor (t : List Char) (e : TextEdit) : Prop :=
  e.offset + e.length ≤ t.length ∧
    (t.drop e.offset).take e.length = e.original.data

instance (t : List Char) (e : TextEdit) : Decidable (ValidFor t e) :=
  inferInstanceAs (Decidable (_ ∧ _))

/-! ## Diff renderer (services/diff_view.py)

`make_diff` walks `difflib.SequenceMatcher(a=src, b=dst).get_opcodes()` and
renders: equal spans escaped verbatim, inserted spans in a green `<mark>`,
deleted spans in a red struck-through `<mark>`, and a replace opcode as a
deletion marker followed by an insertion marker.  `difflib` is an external
library; we model `get_opcodes()` by its documented contract: the opcodes
partition both strings contiguously from position 0 to the end, `equal`
spans are literally equal, `insert` consumes no source, `delete` consumes
no destination. -/

inductive OpTag where
  | equal
  | insert
  | delete
  | replace
  deriving DecidableEq, Repr

structure Opcode where
  tag : OpTag
  i1 : Nat
  i2 : Nat
  j1 : Nat
  j2 : Nat
  deriving DecidableEq, Repr

/-- Python slice `l[a:b]`. -/
def sliceL (l : List Char) (a b : Nat) : List Char := (l.drop a).take (b - a)

/-- The documented shape of `SequenceMatcher.get_opcodes()` output for
`(a, b)`, checked from positions `(i, j)`: each opcode continues exactly
where the previous one ended, the first starts at `(0, 0)` (the initial
call), the last ends at `(len a, len b)`, `equal` opcodes cover literally
equal spans, `insert` has `i1 == i2`, `delete` has `j1 == j2`. -/
def opcodesOk (a b : List Char) : Nat → Nat → List Opcode → Bool
  | i, j, [] => decide (i = a.length) && decide (j = b.length)
  | i, j, op :: rest =>
      decide (op.i1 = i) && decide (op.j1 = j) &&
      decide (i ≤ op.i2) && decide (j ≤ op.j2) &&
      (match op.tag with
       | .equal => decide (sliceL a op.i1 op.i2 = sliceL b op.j1 op.j2)
       | .insert => decide (op.i1 = op.i2)
       | .delete => decide (op.j1 = op.j2)
       | .replace => true) &&
      opcodesOk a b op.i2 op.j2 rest

/-- `html.escape` applied characterwise. -/
def htmlEscapeChar (c : Char) : List Char :=
  if c = '&' then ('&' :: "amp;".data)
  else if c = '<' then ('&' :: "lt;".data)
  else if c = '>' then ('&' :: "gt;".data)
  else if c = '"' then ('&' :: "quot;".data)
  else if c = '\x27' then ('&' :: "#x27;".data)
  else [c]

/-- `html.escape(s)` (quote=True, the default used by `escape` here). -/
def htmlEscape (l : List Char) : List Char := (l.map htmlEscapeChar).flatten

/-- Opening tag of the insertion marker in `make_diff`. -/
def insOpen : List Char := "<mark style='background:#e6ffed'>".data

/-- Opening tag of the deletion marker in `make_diff`. -/
def delOpen : List Char :=
  "<mark style='background:#ffeef0;text-decoration:line-through'>".data

/-- Closing marker tag. -/
def markClose : List Char := "</mark>".data

/-- Rendering of a single opcode in `make_diff`. -/
def renderOpcode (src dst : List Char) (op : Opcode) : List Char :=
  match op.tag with
  | .equal => htmlEscape (sliceL dst op.j1 op.j2)
  | .insert => insOpen ++ htmlEscape (sliceL dst op.j1 op.j2) ++ markClose
  | .delete => delOpen ++ htmlEscape (sliceL src op.i1 op.i2) ++ markClose
  | .replace =>
      delOpen ++ htmlEscape (sliceL src op.i1 op.i2) ++ markClose ++
      (insOpen ++ htmlEscape (sliceL dst op.j1 op.j2) ++ markClose)

/-- `make_diff(src, dst)` given the opcode alignment `ops` computed by the
external `difflib.SequenceMatcher`. -/
def make_diff (src dst : List Char) (ops : List Opcode) : List Char :=
  (ops.map (renderOpcode src dst)).flatten

/-- The destination-side span content an opcode renders (the text inside an
insertion marker, or verbatim for an `equal` opcode), before escaping. -/
def dstSideSpan (dst : List Char) (op : Opcode) : List Char :=
  match op.tag with
  | .equal => sliceL dst op.j1 op.j2
  | .insert => sliceL dst op.j1 op.j2
  | .replace => sliceL dst op.j1 op.j2
  | .delete => []

/-- The source-side span content an opcode renders (the text inside a
deletion marker, or verbatim for an `equal` opcode), before escaping.
`equal` renders `dst[j1:j2]`, which equals `src[i1:i2]` for valid opcodes. -/
def srcSideSpan (src dst : List Char) (op : Opcode) : List Char :=
  match op.tag with
  | .equal => sliceL dst op.j1 op.j2
  | .delete => sliceL src op.i1 op.i2
  | .replace => sliceL src op.i1 op.i2
  | .insert => []

/-- Concatenation, in order, of the span contents rendered for `equal` and
`insert` opcodes only — the reading of the claim under test in C9. -/
def equalInsertSpans (dst : List Char) (ops : List Opcode) : List Char :=
  (ops.map (fun op => match op.tag with
    | .equal => sliceL dst op.j1 op.j2
    | .insert => sliceL dst op.j1 op.j2
    | _ => [])).flatten

/-- Concatenation of all destination-side spans (equal, insert, and the
insertion half of replace). -/
def allDstSpans (dst : List Char) (ops : List Opcode) : List Char :=
  (ops.map (dstSideSpan dst)).flatten

/-- Concatenation of all source-side spans (equal, delete, and the deletion
half of replace). -/
def allSrcSpans (src dst : List Char) (ops : List Opcode) : List Char :=
  (ops.map (srcSideSpan src dst)).flatten

/-! ## Rule engine: legal rules, strict rules, typography

The regex passes of `CorrectionEngine.apply_legal_rules`,
`apply_strict_rules` and `apply_typography` (and the textually identical
legacy `typograph_ru.typograph` / `quotes_and_dashes`) are embedded as
left-to-right scanners with `re`'s leftmost, non-overlapping semantics.
Python's `\w`, `\s` and `\d` character classes are modelled for the
character ranges this program works with: ASCII plus the Cyrillic block for
`\w`, Python's whitespace set for `\s`, and ASCII digits for `\d`. -/

/-- Python regex `\w` (word character), restricted to ASCII and Cyrillic. -/
def isWordChar (c : Char) : Bool :=
  c.isAlphanum || c = '_' || (decide (0x400 ≤ c.toNat) && decide (c.toNat ≤ 0x4FF))

/-- Python regex `\s` (whitespace). -/
def isRegexSpace (c : Char) : Bool := isPyWS c

/-- Case folding for the case-insensitive matches (`re.IGNORECASE`),
covering ASCII letters and the Cyrillic letters used by the unit and
reference-abbreviation alternations. -/
def caseFold (c : Char) : Char :=
  if decide ('A' ≤ c) && decide (c ≤ 'Z') then Char.ofNat (c.toNat + 0x20)
  else if decide ('А' ≤ c) && decide (c ≤ 'Я') then Char.ofNat (c.toNat + 0x20)
  else if c = 'Ё' then 'ё'
  else c

/-- Quote-conversion scanner: `re.finditer(r'"([^"\n]+)"', text)`, rewriting
each match `"inner"` to `«inner»` and emitting a `TextEdit` against the
pre-pass text (the replacement has the same length as the original, so the
code's running `offset` drift is always zero).  The state is `none`
(outside a candidate match) or `some (q, acc)`: an opening quote was seen
at index `q` and `acc` holds the (reversed) inner characters scanned so
far; a newline or the end of input flushes the candidate literally, and an
immediately following quote (`""`) restarts the candidate at the second
quote, as the regex requires at least one inner character. -/
def quotesAuxE : Nat → Option (Nat × List Char) → List Char → List Char × List TextEdit
  | _, none, [] => ([], [])
  | i, none, c :: r =>
      if c = '"' then quotesAuxE (i + 1) (some (i, [])) r
      else
        let (tl, es) := quotesAuxE (i + 1) none r
        (c :: tl, es)
  | _, some (_, acc), [] => ('"' :: acc.reverse, [])
  | i, some (q, acc), c :: r =>
      if c = '"' then
        match acc with
        | [] =>
            let (tl, es) := quotesAuxE (i + 1) (some (i, [])) r
            ('"' :: tl, es)
        | _ :: _ =>
            let inner := acc.reverse
            let original : List Char := '"' :: inner ++ ['"']
            let replacement : List Char := '«' :: inner ++ ['»']
            let (tl, es) := quotesAuxE (i + 1) none r
            (replacement ++ tl,
              (if original = replacement then [] else
                [⟨q, original.length, ⟨original⟩, ⟨replacement⟩,
                  "Convert to Russian quotes", "RU_QUOTES"⟩]) ++ es)
      else if c = '\n' then
        let (tl, es) := quotesAuxE (i + 1) none r
        ('"' :: acc.reverse ++ '\n' :: tl, es)
      else quotesAuxE (i + 1) (some (q, c :: acc)) r

/-- State of the em-dash scanner `(?<=\w)\s*-\s*(?=\w)`:
`idle pw` — scanning, `pw` records whether the previous character was a
word character (the lookbehind); `sp s1` — a word character was followed by
the (reversed, nonempty) whitespace run `s1`; `da s1 s2` — a hyphen was
seen after run `s1`, with trailing (reversed) whitespace run `s2`. -/
inductive DashSt where
  | idle (prevWord : Bool)
  | sp (s1 : List Char)
  | da (s1 : List Char) (s2 : List Char)

/-- Em-dash scanner: rewrites each match of `(?<=\w)\s*-\s*(?=\w)` to
`" — "` and emits a `TextEdit` whose offset is the match's position in the
*output* text (the code computes `len(t_new) - len(replacement)`); `n` is
the number of characters emitted so far. -/
def dashAuxE : Nat → DashSt → List Char → List Char × List TextEdit
  | _, .idle _, [] => ([], [])
  | _, .sp s1, [] => (s1.reverse, [])
  | _, .da s1 s2, [] => (s1.reverse ++ '-' :: s2.reverse, [])
  | n, .idle pw, c :: r =>
      if pw && isRegexSpace c then dashAuxE n (.sp [c]) r
      else if pw && c = '-' then dashAuxE n (.da [] []) r
      else
        let (tl, es) := dashAuxE (n + 1) (.idle (isWordChar c)) r
        (c :: tl, es)
  | n, .sp s1, c :: r =>
      if isRegexSpace c then dashAuxE n (.sp (c :: s1)) r
      else if c = '-' then dashAuxE n (.da s1 []) r
      else
        let (tl, es) := dashAuxE (n + s1.length + 1) (.idle (isWordChar c)) r
        (s1.reverse ++ c :: tl, es)
  | n, .da s1 s2, c :: r =>
      if isRegexSpace c then dashAuxE n (.da s1 (c :: s2)) r
      else if isWordChar c then
        let original := s1.reverse ++ '-' :: s2.reverse
        let (tl, es) := dashAuxE (n + 4) (.idle true) r
        (' ' :: '—' :: ' ' :: c :: tl,
          (if original = [' ', '—', ' '] then [] else
            [⟨n, original.length, ⟨original⟩, " — ",
              "Convert to em-dash", "EM_DASH"⟩]) ++ es)
      else
        let flushed := s1.reverse ++ '-' :: s2.reverse
        let (tl, es) := dashAuxE (n + flushed.length + 1) (.idle (isWordChar c)) r
        (flushed ++ c :: tl, es)

/-- `re.sub(r"  +", " ", t)` (and the typography pass's `r" {2,}"`):
collapse every run of two or more plain spaces to a single space. -/
def collapseTwoSpaces : List Char → List Char
  | [] => []
  | [c] => [c]
  | a :: b :: r =>
      if a = ' ' && b = ' ' then collapseTwoSpaces (b :: r)
      else a :: collapseTwoSpaces (b :: r)

/-- The punctuation class `[.,;:!?]`. -/
def isPunctC (c : Char) : Bool :=
  c = '.' || c = ',' || c = ';' || c = ':' || c = '!' || c = '?'

/-- `re.sub(r" +([.,;:!?])", r"\1", t)`: a run of spaces immediately
followed by punctuation is deleted; `pending` counts buffered spaces. -/
def dropSpacesBeforePunctAux (pending : Nat) : List Char → List Char
  | [] => List.replicate pending ' '
  | c :: r =>
      if c = ' ' then dropSpacesBeforePunctAux (pending + 1) r
      else if isPunctC c then c :: dropSpacesBeforePunctAux 0 r
      else List.replicate pending ' ' ++ c :: dropSpacesBeforePunctAux 0 r

/-- `CorrectionEngine.apply_legal_rules`: quote conversion (with edits),
em-dash conversion (with edits), double-space collapse, and removal of
spaces before punctuation; returns the rewritten text and the collected
edits (quote edits first, then dash edits, as the code appends them). -/
def apply_legal_rules (t : List Char) : List Char × List TextEdit :=
  let (t1, quoteEdits) := quotesAuxE 0 none t
  let (t2, dashEdits) := dashAuxE 0 (.idle false) t1
  let t3 := collapseTwoSpaces t2
  let t4 := dropSpacesBeforePunctAux 0 t3
  (t4, quoteEdits ++ dashEdits)

/-- `re.sub(r"\n{3,}", "\n\n", t)`: collapse runs of three or more
newlines down to exactly two. -/
def collapseNewlines3 : List Char → List Char
  | [] => []
  | [c] => [c]
  | [a, b] => [a, b]
  | a :: b :: c :: r =>
      if a = '\n' && b = '\n' && c = '\n' then collapseNewlines3 (b :: c :: r)
      else a :: collapseNewlines3 (b :: c :: r)

/-- The letter class `[А-Яа-яA-Za-z]` of the strict-tier rule (note: it
does not include `ё`/`Ё`). -/
def isStrictLetter (c : Char) : Bool :=
  (decide ('A' ≤ c) && decide (c ≤ 'Z')) ||
  (decide ('a' ≤ c) && decide (c ≤ 'z')) ||
  (decide ('А' ≤ c) && decide (c ≤ 'Я')) ||
  (decide ('а' ≤ c) && decide (c ≤ 'я'))

/-- `re.sub(r"([.,;:!?])([А-Яа-яA-Za-z])", r"\1 \2", t)`: insert a space
between punctuation and an immediately following letter; scanning resumes
after the letter (non-overlapping matches). -/
def spaceAfterPunct : List Char → List Char
  | [] => []
  | [c] => [c]
  | p :: c :: r =>
      if isPunctC p && isStrictLetter c then p :: ' ' :: c :: spaceAfterPunct r
      else p :: spaceAfterPunct (c :: r)

/-- `CorrectionEngine.apply_strict_rules`. -/
def apply_strict_rules (t : List Char) : List Char :=
  spaceAfterPunct (collapseNewlines3 t)

/-- `re.sub(r"\.\.\.", "…", t)`: each non-overlapping triple of periods
becomes one ellipsis character. -/
def ellipsisFix : List Char → List Char
  | '.' :: '.' :: '.' :: r => '…' :: ellipsisFix r
  | c :: r => c :: ellipsisFix r
  | [] => []

/-- `re.sub(r"(\d)\s*%", "\1 %", t)`: state `some (d, sp)` records a
scanned digit `d` and the (reversed) whitespace run `sp` after it. -/
def percentAux : Option (Char × List Char) → List Char → List Char
  | none, [] => []
  | some (d, sp), [] => d :: sp.reverse
  | none, c :: r =>
      if c.isDigit then percentAux (some (c, [])) r
      else c :: percentAux none r
  | some (d, sp), c :: r =>
      if c = '%' then d :: nbspChar :: '%' :: percentAux none r
      else if isRegexSpace c then percentAux (some (d, c :: sp)) r
      else if c.isDigit then d :: sp.reverse ++ percentAux (some (c, [])) r
      else d :: sp.reverse ++ c :: percentAux none r

/-- Case-insensitive literal match: `matchCIb pat l` returns the actually
matched characters (original case, for `\2`) and the remainder, whose
length is tied to the input's. -/
def matchCIb : (pat l : List Char) → Option (List Char × {r : List Char // r.length + pat.length = l.length})
  | [], l => some ([], ⟨l, by simp⟩)
  | _ :: _, [] => none
  | p :: ps, c :: cs =>
      if caseFold c = caseFold p then
        match matchCIb ps cs with
        | some (m, ⟨r, hr⟩) => some (c :: m, ⟨r, by simp [List.length_cons]; omega⟩)
        | none => none
      else none

/-- The unit alternation `(кг|г|м|км|см|мм|л|мл|шт|тыс\.|млн|млрд)`, in the
pattern's order (alternation is ordered in Python regexes). -/
def unitAlternation : List (List Char) :=
  ["кг", "г", "м", "км", "см", "мм", "л", "мл", "шт", "тыс.", "млн", "млрд"].map String.data

/-- First unit branch matching a prefix of `l`, case-insensitively. -/
def matchFirstUnit (l : List Char) : Option (List Char × {r : List Char // r.length < l.length}) :=
  unitAlternation.findSome? fun u =>
    if hu : u.length = 0 then none
    else
      match matchCIb u l with
      | some (m, ⟨r, hr⟩) => some (m, ⟨r, by omega⟩)
      | none => none

/-- `re.sub(r"(\d)\s+(кг|г|м|км|см|мм|л|мл|шт|тыс\.|млн|млрд)", "\1 \2",
t, flags=re.IGNORECASE)`: digit, at least one whitespace character, then a
unit from the alternation; the matched whitespace run is replaced by one
non-breaking space. -/
def unitPass : List Char → List Char
  | [] => []
  | c :: r =>
      if c.isDigit then
        let sp := r.takeWhile isRegexSpace
        if sp.isEmpty then c :: unitPass r
        else
          match matchFirstUnit (r.drop sp.length) with
          | some (m, ⟨rest, hrest⟩) => c :: nbspChar :: (m ++ unitPass rest)
          | none => c :: unitPass r
      else c :: unitPass r
  termination_by l => l.length
  decreasing_by
  all_goals simp_wf
  all_goals try omega
  rename_i hrest
  simp only [List.length_drop] at hrest
  omega

/-- `re.sub(r"№\s*(\d)", "№ \1", t)`: state `some sp` records a `№`
followed by the (reversed) whitespace run `sp`. -/
def numeroAux : Option (List Char) → List Char → List Char
  | none, [] => []
  | some sp, [] => '№' :: sp.reverse
  | none, c :: r =>
      if c = '№' then numeroAux (some []) r
      else c :: numeroAux none r
  | some sp, c :: r =>
      if c.isDigit then '№' :: nbspChar :: c :: numeroAux none r
      else if isRegexSpace c then numeroAux (some (c :: sp)) r
      else if c = '№' then ('№' :: sp.reverse) ++ numeroAux (some []) r
      else ('№' :: sp.reverse) ++ c :: numeroAux none r

/-- The reference-abbreviation alternation `(ст|п|г)`. -/
def refAbbrevs : List (List Char) := ["ст", "п", "г"].map String.data

/-- One match of `\b(ст|п|г)\.\s*(\d+)` at the head of `l` (the `\b` is
checked by the caller): abbreviation (case-insensitive), a period, optional
whitespace, one or more digits; returns the matched abbreviation, the
digits, and the remainder. -/
def matchRefSub (l : List Char) : Option (List Char × List Char × {r : List Char // r.length < l.length}) :=
  refAbbrevs.findSome? fun ab =>
    match matchCIb ab l with
    | none => none
    | some (m, ⟨r1, h1⟩) =>
        match hr1 : r1 with
        | '.' :: r2 =>
            let sp := r2.takeWhile isRegexSpace
            let r3 := r2.drop sp.length
            let ds := r3.takeWhile Char.isDigit
            match hds : ds with
            | [] => none
            | _ :: _ =>
                some (m, ds, ⟨r3.drop ds.length, by
                  have e1 : r1.length = r2.length + 1 := by rw [hr1]; simp
                  have e2 : r3.length ≤ r2.length := by
                    simp only [r3, List.length_drop]; omega
                  have e3 : ds.length ≤ r3.length :=
                    (List.takeWhile_prefix _).length_le
                  have e4 : 1 ≤ ds.length := by rw [hds]; simp
                  have h1b := h1
                  simp only [List.length_cons] at h1b
                  rw [List.length_drop]
                  omega⟩)
        | _ => none

/-- `re.sub(r"\b(ст|п|г)\.\s*(\d+)", "\1. \2", t, flags=re.IGNORECASE)`:
the boolean argument tracks whether the previous character was a word
character (so `\b` holds exactly when it is false). -/
def refPass (prevWord : Bool) : List Char → List Char
  | [] => []
  | c :: r =>
      if prevWord then c :: refPass (isWordChar c) r
      else
        match matchRefSub (c :: r) with
        | some (ab, ds, ⟨rest, _⟩) => ab ++ '.' :: nbspChar :: ds ++ refPass true rest
        | none => c :: refPass (isWordChar c) r
  termination_by l => l.length
  decreasing_by
  · simp
  · rename_i hlt
    exact hlt
  · simp

/-- `CorrectionEngine.apply_typography` (textually identical to the legacy
`typograph_ru.typograph`): ellipsis, percent, units, `№`, reference
abbreviations, then double-space cleanup. -/
def apply_typography (t : List Char) : List Char :=
  collapseTwoSpaces (refPass false (numeroAux none (unitPass (percentAux none (ellipsisFix t)))))

/-- Legacy `typograph_ru.typograph` — the same sequence of passes. -/
def typograph (t : List Char) : List Char := apply_typography t

/-- Legacy `quotes_and_dashes`: the same quote and dash regexes as
`apply_legal_rules`, applied without edit tracking. -/
def quotes_and_dashes (t : List Char) : List Char :=
  (dashAuxE 0 (.idle false) (quotesAuxE 0 none t).1).1

/-! ## CorrectionEngine.correct (src/ru_corrector/core/engine.py)

The provider (`LanguageToolProvider.check` or the `MockProvider` test
double) is injected as a function returning `Except`: `.error` models an
exception escaping `check` (neither `LanguageToolProvider.check` nor
`CorrectionEngine.correct` contains any exception handler, so a raising
provider propagates out of `correct`). -/

inductive EngineMode where
  | base
  | legal
  | strict
  deriving DecidableEq, Repr

/-- `CorrectionEngine.correct(text, mode)`.  The guard
`if mode in ("base", "legal", "strict")` is satisfied by every value of the
`Mode` literal type, so the provider is always consulted. -/
def engineCorrect (providerCheck : String → Except String (List TextEdit))
    (text : String) (mode : EngineMode) :
    Except String (String × List TextEdit) :=
  let normalized := normalize text
  match providerCheck normalized with
  | .error e => .error e
  | .ok provider_edits =>
    let text_after_provider := applyEditsStr normalized provider_edits
    let all_edits := provider_edits
    let (text_after_legal, all_edits) :=
      if mode = EngineMode.legal ∨ mode = EngineMode.strict then
        let (t2, legal_edits) := apply_legal_rules text_after_provider.data
        ((⟨t2⟩ : String), all_edits ++ legal_edits)
      else (text_after_provider, all_edits)
    let text_after_strict :=
      if mode = EngineMode.strict then
        (⟨apply_strict_rules text_after_legal.data⟩ : String)
      else text_after_legal
    let final_text : String := ⟨apply_typography text_after_strict.data⟩
    let final_edits := deduplicate_edits all_edits
    .ok (final_text, final_edits)

/-- `MockProvider(edits).check`: returns the fixed edit list for any
input. -/
def mockProvider (edits : List TextEdit) : String → Except String (List TextEdit) :=
  fun _ => .ok edits

/-! ## Legacy pipeline (core_corrector.py, openai_client.py)

External collaborators are parameters: `ltCheck` models the LanguageTool
client (`.error` covers both a failed lazy initialisation — `_lt_failed` —
and an exception from `lt.check`, which `apply_languagetool` swallows
identically by returning the text unchanged), `oai` models
`correct_text_openai` as seen by `correct_text` (`.error` is any raised
exception), and `opsFor` supplies difflib's opcode alignment to
`make_diff`. -/

/-- One LanguageTool match as consumed by the legacy `apply_languagetool`:
`offset`, `errorLength` and the suggested `replacements`. -/
structure LtMatch where
  offset : Nat
  errorLength : Nat
  replacements : List String
  deriving Repr

/-- Stable descending insertion by correction start (model of
`corrections.sort(key=lambda x: x[0], reverse=True)`). -/
def insertCorrDesc : List (Nat × Nat × String) → (Nat × Nat × String) → List (Nat × Nat × String)
  | [], e => [e]
  | x :: xs, e => if e.1 ≤ x.1 then x :: insertCorrDesc xs e else e :: x :: xs

/-- Stable descending sort by correction start. -/
def sortCorrDesc (l : List (Nat × Nat × String)) : List (Nat × Nat × String) :=
  l.foldl insertCorrDesc []

/-- Legacy `apply_languagetool(text)`: on any LanguageTool failure return
the text unchanged; otherwise drop matches without replacements, take each
match's first replacement, and apply the corrections back-to-front. -/
def apply_languagetool (ltCheck : List Char → Except Unit (List LtMatch))
    (text : List Char) : List Char :=
  match ltCheck text with
  | .error _ => text
  | .ok ms =>
      let corrections := ms.filterMap fun m =>
        m.replacements.head?.map fun r => (m.offset, m.offset + m.errorLength, r)
      if corrections.isEmpty then text
      else
        (sortCorrDesc corrections).foldl
          (fun out c => out.take c.1 ++ c.2.2.data ++ out.drop c.2.1) text

inductive LegacyMode where
  | min
  | biz
  | acad
  | typo
  | diff
  deriving DecidableEq, Repr

/-- Legacy `style_refine`: a compatibility stub returning the text
unchanged. -/
def style_refine (t : String) (_ : LegacyMode) : String := t

/-- Shortest-inner split for the non-greedy `<del>(.*?)</del>` /
`<ins>(.*?)</ins>` bodies: returns the inner characters (none of which is a
newline, `.` does not match `\n`) and the remainder after the closing tag,
or `none` when no closing tag occurs on this line. -/
def splitTagged (close : List Char) : (l : List Char) → Option (List Char × {r : List Char // r.length ≤ l.length})
  | [] => none
  | c :: r =>
      if close.isPrefixOf (c :: r) then
        some ([], ⟨(c :: r).drop close.length, by
          rw [List.length_drop]; omega⟩)
      else if c = '\n' then none
      else
        match splitTagged close r with
        | some (inn, ⟨rest, hres⟩) => some (c :: inn, ⟨rest, by
            simp only [List.length_cons]; omega⟩)
        | none => none

/-- `re.sub(r'<del>.*?</del>', '', html)`. -/
def stripDelTags : List Char → List Char
  | [] => []
  | c :: r =>
      if "<del>".data.isPrefixOf (c :: r) then
        match splitTagged "</del>".data ((c :: r).drop 5) with
        | some (_, ⟨rest, hres⟩) => stripDelTags rest
        | none => c :: stripDelTags r
      else c :: stripDelTags r
  termination_by l => l.length
  decreasing_by
  · rename_i hres
    simp only [List.length_drop, List.length_cons] at hres
    simp only [List.length_cons]
    omega
  · simp
  · simp

/-- `re.sub(r'<ins>(.*?)</ins>', r'\1', html)`: the inner content is kept
(and, per `re.sub` semantics, not rescanned). -/
def stripInsTags : List Char → List Char
  | [] => []
  | c :: r =>
      if "<ins>".data.isPrefixOf (c :: r) then
        match splitTagged "</ins>".data ((c :: r).drop 5) with
        | some (inn, ⟨rest, hres⟩) => inn ++ stripInsTags rest
        | none => c :: stripInsTags r
      else c :: stripInsTags r
  termination_by l => l.length
  decreasing_by
  · rename_i hres
    simp only [List.length_drop, List.length_cons] at hres
    simp only [List.length_cons]
    omega
  · simp
  · simp

/-- Blank input per `not text or not text.strip()`: empty, or every
character is Python whitespace. -/
def isBlank (text : String) : Bool := text.data.all isPyWS

/-- Legacy `correct_text(text, mode, do_typograph, make_diff_view)` from
core_corrector.py.  Returns `(corrected, some diffHtml)` when a diff view
is requested and `(corrected, none)` otherwise (modelling the
`str | tuple[str, str]` return).  `useOpenai` is `_use_openai()`; `oai` is
`correct_text_openai`, whose `.error` is any exception (caught by the
`try`/`except` blocks and turned into the local fallback). -/
def correct_text (useOpenai : Bool)
    (oai : String → LegacyMode → Except Unit String)
    (ltCheck : List Char → Except Unit (List LtMatch))
    (opsFor : List Char → List Char → List Opcode)
    (text : String) (mode : LegacyMode)
    (do_typograph : Bool) (make_diff_view : Bool) : String × Option String :=
  if isBlank text then
    if make_diff_view then ("", some "") else ("", none)
  else
    let src := normalize text
    let fallback : String × Option String :=
      if mode = LegacyMode.typo then
        let final : String := ⟨typograph (quotes_and_dashes src.data)⟩
        if make_diff_view then
          (final, some ⟨make_diff src.data final.data (opsFor src.data final.data)⟩)
        else (final, none)
      else
        let lt_fixed := apply_languagetool ltCheck src.data
        let rule_fixed := quotes_and_dashes lt_fixed
        let final : String := if do_typograph then ⟨typograph rule_fixed⟩ else ⟨rule_fixed⟩
        let final := if mode = LegacyMode.biz ∨ mode = LegacyMode.acad then
            style_refine final mode
          else final
        if make_diff_view then
          (final, some ⟨make_diff src.data final.data (opsFor src.data final.data)⟩)
        else (final, none)
    if useOpenai then
      if make_diff_view then
        match oai src LegacyMode.diff with
        | .ok html =>
            ((⟨stripInsTags (stripDelTags html.data)⟩ : String), some html)
        | .error _ =>
            match oai src mode with
            | .ok final =>
                (final, some ⟨make_diff src.data final.data (opsFor src.data final.data)⟩)
            | .error _ => fallback
      else if mode = LegacyMode.typo then
        match oai src LegacyMode.typo with
        | .ok final => (final, none)
        | .error _ => fallback
      else
        match oai src mode with
        | .ok final => (final, none)
        | .error _ => fallback
    else fallback

/-! ## correct_text_openai (openai_client.py) -/

inductive OaiFailure where
  | tooLong
  | apiError (msg : String)
  deriving DecidableEq, Repr

/-- Markdown code-fence cleanup applied to diff-mode responses. -/
def dropCodeFences (r : List Char) : List Char :=
  let r1 := if "```html".data.isPrefixOf r then r.drop 7 else r
  let r2 := if "```".data.isPrefixOf r1 then r1.drop 3 else r1
  let r3 := if "```".data.reverse.isPrefixOf r2.reverse then r2.take (r2.length - 3) else r2
  stripEnds r3

/-- `correct_text_openai(text, mode)`: blank text is returned unchanged;
text longer than `MAX_TEXT_LEN` raises `ValueError` (modelled `.error
.tooLong`) before any call to the API; otherwise the chat-completion call
`llm` is made and its stripped content returned (with code-fence cleanup in
diff mode); an API exception surfaces as an error.  The mode-validity check
always passes for the five `LegacyMode` values. -/
def correct_text_openai (llm : String → LegacyMode → Except String String)
    (maxTextLen : Nat) (text : String) (mode : LegacyMode) :
    Except OaiFailure String :=
  if isBlank text then .ok text
  else if maxTextLen < text.length then .error .tooLong
  else
    match llm text mode with
    | .error msg => .error (.apiError msg)
    | .ok raw =>
        let result := stripEnds raw.data
        if mode = LegacyMode.diff then .ok ⟨dropCodeFences result⟩
        else .ok ⟨result⟩

end RuCorrector

namespace RuCorrector

/-! ## Basic lemmas about sorting, deduplication and the conflict scan -/

theorem conflicts_with_comm (a b : TextEdit) :
    a.conflicts_with b = b.conflicts_with a := by
  simp only [TextEdit.conflicts_with]
  rw [Bool.or_comm]

theorem insertAsc_perm (acc : List TextEdit) (e : TextEdit) :
    List.Perm (insertAsc acc e) (e :: acc) := by
  induction acc with
  | nil => simp [insertAsc]
  | cons x xs ih =>
      rw [insertAsc]
      split
      · exact (ih.cons x).trans (List.Perm.swap e x xs)
      · exact List.Perm.refl _

theorem foldl_insertAsc_perm (l : List TextEdit) :
    ∀ acc, List.Perm (l.foldl insertAsc acc) (acc ++ l) := by
  induction l with
  | nil => intro acc; simp
  | cons e rest ih =>
      intro acc
      have h1 : List.Perm (rest.foldl insertAsc (insertAsc acc e)) (insertAsc acc e ++ rest) := ih _
      have h2 : List.Perm (insertAsc acc e ++ rest) ((e :: acc) ++ rest) :=
        (insertAsc_perm acc e).append_right rest
      exact (h1.trans h2).trans List.perm_middle.symm

theorem sortAsc_perm (l : List TextEdit) : List.Perm (sortAsc l) l := by
  simpa using foldl_insertAsc_perm l []

theorem insertAsc_sorted {acc : List TextEdit} (e : TextEdit)
    (h : acc.Sorted (fun a b => a.offset ≤ b.offset)) :
    (insertAsc acc e).Sorted (fun a b => a.offset ≤ b.offset) := by
  induction acc with
  | nil => simp [insertAsc]
  | cons x xs ih =>
      rw [List.sorted_cons] at h
      rw [insertAsc]
      split
      · rename_i hxe
        rw [List.sorted_cons]
        refine ⟨?_, ih h.2⟩
        intro b hb
        rcases List.mem_cons.mp ((insertAsc_perm xs e).mem_iff.mp hb) with rfl | hb
        · exact hxe
        · exact h.1 b hb
      · rename_i hxe
        rw [List.sorted_cons]
        refine ⟨?_, List.sorted_cons.mpr h⟩
        intro b hb
        rcases List.mem_cons.mp hb with rfl | hb
        · exact Nat.le_of_lt (Nat.lt_of_not_le hxe)
        · exact Nat.le_trans (Nat.le_of_lt (Nat.lt_of_not_le hxe)) (h.1 b hb)

theorem sortAsc_sorted (l : List TextEdit) :
    (sortAsc l).Sorted (fun a b => a.offset ≤ b.offset) := by
  have main : ∀ acc, acc.Sorted (fun a b => a.offset ≤ b.offset) →
      (l.foldl insertAsc acc).Sorted (fun a b => a.offset ≤ b.offset) := by
    induction l with
    | nil => intro acc hacc; exact hacc
    | cons e rest ih => intro acc hacc; exact ih _ (insertAsc_sorted e hacc)
  exact main [] (by simp)

theorem dedupKeepFirst_subset {x : TextEdit} :
    ∀ (l seen : List TextEdit), x ∈ dedupKeepFirst seen l → x ∈ l := by
  intro l
  induction l with
  | nil => intro seen h; simp [dedupKeepFirst] at h
  | cons e rest ih =>
      intro seen h
      rw [dedupKeepFirst] at h
      split at h
      · exact List.mem_cons_of_mem e (ih _ h)
      · rcases List.mem_cons.mp h with rfl | h
        · exact List.mem_cons_self x rest
        · exact List.mem_cons_of_mem e (ih _ h)

theorem acceptScan_mem {x : TextEdit} :
    ∀ (l acc : List TextEdit), x ∈ acceptScan acc l → x ∈ acc ∨ x ∈ l := by
  intro l
  induction l with
  | nil => intro acc h; exact Or.inl h
  | cons e rest ih =>
      intro acc h
      rw [acceptScan] at h
      split at h
      · rcases ih _ h with h | h
        · exact Or.inl h
        · exact Or.inr (List.mem_cons_of_mem e h)
      · rcases ih _ h with h | h
        · rcases List.mem_append.mp h with h | h
          · exact Or.inl h
          · exact Or.inr (List.mem_cons.mpr (Or.inl (List.mem_singleton.mp h)))
        · exact Or.inr (List.mem_cons_of_mem e h)

theorem acceptScan_sorted :
    ∀ (l acc : List TextEdit),
      acc.Sorted (fun a b => a.offset ≤ b.offset) →
      l.Sorted (fun a b => a.offset ≤ b.offset) →
      (∀ a ∈ acc, ∀ b ∈ l, a.offset ≤ b.offset) →
      (acceptScan acc l).Sorted (fun a b => a.offset ≤ b.offset) := by
  intro l
  induction l with
  | nil => intro acc hacc _ _; exact hacc
  | cons e rest ih =>
      intro acc hacc hl hcross
      rw [List.sorted_cons] at hl
      rw [acceptScan]
      split
      · exact ih acc hacc hl.2 fun a ha b hb => hcross a ha b (List.mem_cons_of_mem e hb)
      · refine ih _ ?_ hl.2 ?_
        · rw [List.Sorted, List.pairwise_append]
          refine ⟨hacc, by simp, ?_⟩
          intro a ha b hb
          rw [List.mem_singleton] at hb
          exact hb ▸ hcross a ha e (List.mem_cons_self e rest)
        · intro a ha b hb
          rcases List.mem_append.mp ha with ha | ha
          · exact hcross a ha b (List.mem_cons_of_mem e hb)
          · rw [List.mem_singleton] at ha
            exact ha ▸ hl.1 b hb

theorem acceptScan_pairwise_nonconflicting :
    ∀ (l acc : List TextEdit),
      acc.Pairwise (fun a b => a.conflicts_with b = false) →
      (acceptScan acc l).Pairwise (fun a b => a.conflicts_with b = false) := by
  intro l
  induction l with
  | nil => intro acc hacc; exact hacc
  | cons e rest ih =>
      intro acc hacc
      rw [acceptScan]
      split
      · exact ih acc hacc
      · rename_i hnc
        refine ih _ ?_
        rw [List.pairwise_append]
        refine ⟨hacc, by simp, ?_⟩
        intro a ha b hb
        rw [List.mem_singleton] at hb
        subst hb
        have hfalse : (acc.any fun accepted => b.conflicts_with accepted) = false := by
          simpa using hnc
        have := List.any_eq_false.mp hfalse a ha
        rw [conflicts_with_comm]
        simpa using this

/-! ## C3: the conflict relation versus range overlap -/

theorem rangesOverlap_iff_of_pos {a b : TextEdit}
    (ha : 0 < a.length) (hb : 0 < b.length) :
    RangesOverlap a b ↔
      (b.offset < a.offset + a.length ∧ a.offset < b.offset + b.length) := by
  constructor
  · rintro ⟨x, ⟨h1, h2⟩, ⟨h3, h4⟩⟩
    omega
  · rintro ⟨h1, h2⟩
    exact ⟨max a.offset b.offset, by omega, by omega⟩

/-- C3 counterexample: the claim fails as stated for zero-length edits.  The
zero-length edit at offset 5 has empty range `[5, 5)`, which overlaps
nothing, yet `conflicts_with` reports a conflict with the edit spanning
`[3, 8)`. -/
theorem C3_counterexample :
    (⟨5, 0, "", "", "", ""⟩ : TextEdit).conflicts_with ⟨3, 5, "abcde", "x", "", ""⟩ = true ∧
    ¬ RangesOverlap ⟨5, 0, "", "", "", ""⟩ ⟨3, 5, "abcde", "x", "", ""⟩ := by
  refine ⟨by decide, ?_⟩
  rintro ⟨x, ⟨h1, h2⟩, -⟩
  have h1b : 5 ≤ x := h1
  have h2b : x < 5 + 0 := h2
  omega

/-- C3 (amended): for edits of positive length, `conflicts_with` returns
true iff the half-open ranges `[offset, offset+length)` overlap, and edits
whose ranges merely touch at a boundary never conflict.  (For zero-length
edits the code also reports a conflict when the empty range lies strictly
inside the other range, which the overlap reading does not.) -/
theorem C3_conflicts_iff_ranges_overlap (a b : TextEdit)
    (ha : 0 < a.length) (hb : 0 < b.length) :
    (a.conflicts_with b = true ↔ RangesOverlap a b) ∧
    ((a.offset + a.length = b.offset ∨ b.offset + b.length = a.offset) →
      a.conflicts_with b = false) := by
  constructor
  · rw [rangesOverlap_iff_of_pos ha hb]
    simp [TextEdit.conflicts_with]
  · intro h
    rcases h with h | h
    · simp [TextEdit.conflicts_with, Nat.le_of_eq h]
    · simp [TextEdit.conflicts_with, Nat.le_of_eq h]

theorem C3_conflicts_iff_ranges_overlap_witness :
    (0 < 2 ∧ 0 < 3) ∧
    ((⟨0, 2, "ab", "x", "", ""⟩ : TextEdit).conflicts_with ⟨1, 3, "bcd", "y", "", ""⟩ = true ↔
      RangesOverlap ⟨0, 2, "ab", "x", "", ""⟩ ⟨1, 3, "bcd", "y", "", ""⟩) :=
  ⟨⟨by decide, by decide⟩,
    (C3_conflicts_iff_ranges_overlap ⟨0, 2, "ab", "x", "", ""⟩ ⟨1, 3, "bcd", "y", "", ""⟩
      (by decide) (by decide)).1⟩

/-! ## C4: equality and hashing of edits -/

/-- C4 counterexample: two edits that agree on the 4-tuple
`(offset, length, original, replacement)` but differ in `message` are *not*
equal (the dataclass `__eq__` also compares `message` and `rule_id`), and
`deduplicate_edits` keeps both (they are zero-length, so conflict
resolution does not merge them either): they are distinguishable. -/
theorem C4_counterexample :
    (⟨0, 0, "", "X", "m1", ""⟩ : TextEdit).hashKey = (⟨0, 0, "", "X", "m2", ""⟩ : TextEdit).hashKey ∧
    (⟨0, 0, "", "X", "m1", ""⟩ : TextEdit) ≠ ⟨0, 0, "", "X", "m2", ""⟩ ∧
    deduplicate_edits [⟨0, 0, "", "X", "m1", ""⟩, ⟨0, 0, "", "X", "m2", ""⟩] =
      [⟨0, 0, "", "X", "m1", ""⟩, ⟨0, 0, "", "X", "m2", ""⟩] := by
  refine ⟨by decide, by decide, by decide⟩

/-- C4 (amended): the hash used for deduplication is determined by the
4-tuple `(offset, length, original, replacement)` alone, but equality — the
relation that actually decides which edits are "exact duplicates" — is
determined by all six fields, so edits differing only in `message` or
`rule_id` remain distinct values. -/
theorem C4_eq_and_hash_characterization (a b : TextEdit) :
    (a.hashKey = b.hashKey ↔
      (a.offset = b.offset ∧ a.length = b.length ∧
       a.original = b.original ∧ a.replacement = b.replacement)) ∧
    (a = b ↔
      (a.offset = b.offset ∧ a.length = b.length ∧
       a.original = b.original ∧ a.replacement = b.replacement ∧
       a.message = b.message ∧ a.rule_id = b.rule_id)) := by
  constructor
  · simp [TextEdit.hashKey, Prod.ext_iff]
  · constructor
    · rintro rfl; simp
    · rintro ⟨h1, h2, h3, h4, h5, h6⟩
      cases a; cases b; simp_all

theorem C4_eq_and_hash_characterization_witness :
    ((⟨1, 2, "ab", "c", "m", "r"⟩ : TextEdit).hashKey =
        (⟨1, 2, "ab", "c", "n", "s"⟩ : TextEdit).hashKey ↔
      ((1 : Nat) = 1 ∧ (2 : Nat) = 2 ∧ "ab" = "ab" ∧ "c" = "c")) :=
  (C4_eq_and_hash_characterization ⟨1, 2, "ab", "c", "m", "r"⟩ ⟨1, 2, "ab", "c", "n", "s"⟩).1

end RuCorrector

namespace RuCorrector

/-! ## C2: structure of deduplicate_edits and earliest-offset-wins -/

/-- C2: `deduplicate_edits` is exactly: drop exact duplicates, sort by
ascending offset, then keep an edit iff it conflicts with no already-kept
edit; consequently, of two overlapping edits the one with the lower offset
is retained and the other dropped, whichever order they arrive in. -/
theorem C2_dedup_structure_and_earliest_offset_wins :
    (∀ edits, deduplicate_edits edits =
      acceptScan [] (sortAsc (dedupKeepFirst [] edits))) ∧
    (∀ a b : TextEdit, a.offset < b.offset → a.conflicts_with b = true →
      deduplicate_edits [a, b] = [a] ∧ deduplicate_edits [b, a] = [a]) := by
  constructor
  · intro edits
    cases edits <;> rfl
  · intro a b hlt hconf
    have hne : ¬ (b = a) := by
      intro h; rw [h] at hlt; exact Nat.lt_irrefl _ hlt
    have hconf' : b.conflicts_with a = true := by
      rw [conflicts_with_comm]; exact hconf
    have hle : a.offset ≤ b.offset := Nat.le_of_lt hlt
    have hnotle : ¬ (b.offset ≤ a.offset) := Nat.not_le.mpr hlt
    constructor
    · show acceptScan [] (sortAsc (dedupKeepFirst [] [a, b])) = [a]
      have h1 : dedupKeepFirst [] [a, b] = [a, b] := by
        simp [dedupKeepFirst, hne]
      have h2 : sortAsc [a, b] = [a, b] := by
        simp [sortAsc, insertAsc, hle]
      rw [h1, h2]
      simp [acceptScan, hconf']
    · show acceptScan [] (sortAsc (dedupKeepFirst [] [b, a])) = [a]
      have h1 : dedupKeepFirst [] [b, a] = [b, a] := by
        have hne' : ¬ (a = b) := fun h => hne h.symm
        simp [dedupKeepFirst, hne']
      have h2 : sortAsc [b, a] = [a, b] := by
        simp [sortAsc, insertAsc, hnotle]
      rw [h1, h2]
      simp [acceptScan, hconf']

theorem C2_dedup_structure_and_earliest_offset_wins_witness :
    ((0 : Nat) < 3 ∧
      (⟨0, 5, "Hello", "Hi", "", ""⟩ : TextEdit).conflicts_with
        ⟨3, 5, "lo wo", "lo wo", "", ""⟩ = true) ∧
    deduplicate_edits
        [⟨0, 5, "Hello", "Hi", "", ""⟩, ⟨3, 5, "lo wo", "lo wo", "", ""⟩] =
      [⟨0, 5, "Hello", "Hi", "", ""⟩] :=
  ⟨⟨by decide, by decide⟩,
    (C2_dedup_structure_and_earliest_offset_wins.2
      ⟨0, 5, "Hello", "Hi", "", ""⟩ ⟨3, 5, "lo wo", "lo wo", "", ""⟩
      (by decide) (by decide)).1⟩

/-! ## C10: invariants of the deduplicated edit list -/

/-- C10: the list returned by `deduplicate_edits` contains only edits drawn
from the input, is sorted by ascending offset, and is pairwise
conflict-free in both directions — exactly the no-overlap precondition of
`apply_edits`. -/
theorem C10_dedup_output_invariants (edits : List TextEdit) :
    (∀ e ∈ deduplicate_edits edits, e ∈ edits) ∧
    (deduplicate_edits edits).Sorted (fun a b => a.offset ≤ b.offset) ∧
    (deduplicate_edits edits).Pairwise
      (fun a b => a.conflicts_with b = false ∧ b.conflicts_with a = false) := by
  rcases edits with - | ⟨e0, rest⟩
  · exact ⟨by simp [deduplicate_edits], by simp [deduplicate_edits], by simp [deduplicate_edits]⟩
  · have hmem : ∀ x ∈ deduplicate_edits (e0 :: rest), x ∈ e0 :: rest := by
      intro x hx
      have hx' : x ∈ acceptScan [] (sortAsc (dedupKeepFirst [] (e0 :: rest))) := hx
      rcases acceptScan_mem _ _ hx' with h | h
      · simp at h
      · exact dedupKeepFirst_subset _ _ ((sortAsc_perm _).mem_iff.mp h)
    refine ⟨hmem, ?_, ?_⟩
    · exact acceptScan_sorted _ _ (by simp) (sortAsc_sorted _) (by simp)
    · have hpw : (deduplicate_edits (e0 :: rest)).Pairwise
          (fun a b => a.conflicts_with b = false) :=
        acceptScan_pairwise_nonconflicting _ _ (by simp)
      exact hpw.imp fun {a b} h => ⟨h, by rw [conflicts_with_comm]; exact h⟩

theorem C10_dedup_output_invariants_witness :
    (⟨0, 5, "Hello", "Hi", "", ""⟩ : TextEdit) ∈
      [(⟨3, 5, "lo wo", "lo wo", "", ""⟩ : TextEdit), ⟨0, 5, "Hello", "Hi", "", ""⟩] :=
  (C10_dedup_output_invariants
      [⟨3, 5, "lo wo", "lo wo", "", ""⟩, ⟨0, 5, "Hello", "Hi", "", ""⟩]).1
    ⟨0, 5, "Hello", "Hi", "", ""⟩ (by decide)

end RuCorrector

namespace RuCorrector

/-! ## C7: idempotence of normalize

Strategy: a first `normalize` pass produces text with no NBSP, no tab, no
two adjacent spaces, no space adjacent to a newline, and no leading or
trailing Python whitespace; each of the four steps is the identity on such
text, so a second pass changes nothing. -/

theorem dropWhile_head_false {p : Char → Bool} :
    ∀ {l : List Char} {c : Char}, (l.dropWhile p).head? = some c → p c = false := by
  intro l
  induction l with
  | nil => intro c h; simp at h
  | cons a r ih =>
      intro c h
      rw [List.dropWhile_cons] at h
      split at h
      · exact ih h
      · rename_i hpa
        rw [List.head?_cons, Option.some_inj] at h
        subst h
        exact Bool.of_not_eq_true hpa

theorem mem_nbspToSpace {l : List Char} {c : Char} (h : c ∈ nbspToSpace l) :
    c ≠ nbspChar := by
  rcases List.mem_map.mp h with ⟨a, -, ha⟩
  intro hc
  subst hc
  split at ha
  · exact absurd ha (by decide)
  · rename_i hne
    exact hne ha

theorem nbspToSpace_eq_self {l : List Char} (h : nbspChar ∉ l) :
    nbspToSpace l = l := by
  induction l with
  | nil => rfl
  | cons a r ih =>
      rw [List.mem_cons, not_or] at h
      simp only [nbspToSpace, List.map_cons]
      rw [if_neg (fun hc => h.1 hc.symm)]
      exact congrArg _ (ih h.2)

theorem mem_collapseSpaceTab :
    ∀ {l : List Char} {c : Char}, c ∈ collapseSpaceTab l →
      c = ' ' ∨ (c ∈ l ∧ isSpaceTab c = false) := by
  intro l
  induction l using collapseSpaceTab.induct with
  | case1 => intro c h; simp [collapseSpaceTab] at h
  | case2 d hd =>
      intro c h
      rw [collapseSpaceTab, if_pos hd] at h
      simp at h
      exact Or.inl h
  | case3 d hd =>
      intro c h
      rw [collapseSpaceTab, if_neg hd] at h
      simp at h
      subst h
      exact Or.inr ⟨List.mem_singleton.mpr rfl, Bool.of_not_eq_true hd⟩
  | case4 a b r ha hb ih =>
      intro c h
      rw [collapseSpaceTab, if_pos ha, if_pos hb] at h
      rcases ih h with h | h
      · exact Or.inl h
      · exact Or.inr ⟨List.mem_cons_of_mem a h.1, h.2⟩
  | case5 a b r ha hb ih =>
      intro c h
      rw [collapseSpaceTab, if_pos ha, if_neg hb] at h
      rcases List.mem_cons.mp h with rfl | h
      · exact Or.inl rfl
      · rcases ih h with h | h
        · exact Or.inl h
        · exact Or.inr ⟨List.mem_cons_of_mem a h.1, h.2⟩
  | case6 a b r ha ih =>
      intro c h
      rw [collapseSpaceTab, if_neg ha] at h
      rcases List.mem_cons.mp h with rfl | h
      · exact Or.inr ⟨List.mem_cons_self _ _, Bool.of_not_eq_true ha⟩
      · rcases ih h with h | h
        · exact Or.inl h
        · exact Or.inr ⟨List.mem_cons_of_mem a h.1, h.2⟩

theorem collapseSpaceTab_head_space :
    ∀ {l : List Char}, (collapseSpaceTab l).head? = some ' ' →
      ∃ d, l.head? = some d ∧ isSpaceTab d = true := by
  intro l
  induction l using collapseSpaceTab.induct with
  | case1 => intro h; simp [collapseSpaceTab] at h
  | case2 d hd =>
      intro h
      exact ⟨d, rfl, hd⟩
  | case3 d hd =>
      intro h
      rw [collapseSpaceTab, if_neg hd] at h
      rw [List.head?_cons, Option.some_inj] at h
      exact absurd (by simp [isSpaceTab, h]) hd
  | case4 a b r ha hb ih =>
      intro h
      exact ⟨a, rfl, ha⟩
  | case5 a b r ha hb ih =>
      intro h
      exact ⟨a, rfl, ha⟩
  | case6 a b r ha ih =>
      intro h
      rw [collapseSpaceTab, if_neg ha] at h
      rw [List.head?_cons, Option.some_inj] at h
      exact absurd (by simp [isSpaceTab, h]) ha

theorem collapseSpaceTab_noTwoSpaces :
    ∀ (l : List Char),
      (collapseSpaceTab l).Chain' (fun a b => ¬(a = ' ' ∧ b = ' ')) := by
  intro l
  induction l using collapseSpaceTab.induct with
  | case1 => simp [collapseSpaceTab]
  | case2 d hd => rw [collapseSpaceTab, if_pos hd]; simp
  | case3 d hd => rw [collapseSpaceTab, if_neg hd]; simp
  | case4 a b r ha hb ih =>
      rw [collapseSpaceTab, if_pos ha, if_pos hb]
      exact ih
  | case5 a b r ha hb ih =>
      rw [collapseSpaceTab, if_pos ha, if_neg hb]
      rw [List.chain'_cons']
      refine ⟨?_, ih⟩
      intro c hc
      rintro ⟨-, rfl⟩
      rcases collapseSpaceTab_head_space hc with ⟨d, hd1, hd2⟩
      rw [List.head?_cons, Option.some_inj] at hd1
      exact hb (hd1 ▸ hd2)
  | case6 a b r ha ih =>
      rw [collapseSpaceTab, if_neg ha]
      rw [List.chain'_cons']
      refine ⟨?_, ih⟩
      intro c hc
      rintro ⟨rfl, -⟩
      exact ha (by simp [isSpaceTab])

theorem collapseSpaceTab_eq_self :
    ∀ {l : List Char}, '\t' ∉ l →
      l.Chain' (fun a b => ¬(a = ' ' ∧ b = ' ')) →
      collapseSpaceTab l = l := by
  intro l
  induction l using collapseSpaceTab.induct with
  | case1 => intro _ _; rfl
  | case2 d hd =>
      intro hT _
      have : d = ' ' := by
        rcases Bool.or_eq_true_iff.mp hd with h | h
        · exact of_decide_eq_true h
        · exact absurd (List.mem_singleton.mpr (of_decide_eq_true h).symm) hT
      rw [collapseSpaceTab, if_pos hd, this]
  | case3 d hd =>
      intro _ _
      rw [collapseSpaceTab, if_neg hd]
  | case4 a b r ha hb ih =>
      intro hT hDS
      rw [List.mem_cons, not_or] at hT
      have ha' : a = ' ' := by
        rcases Bool.or_eq_true_iff.mp ha with h | h
        · exact of_decide_eq_true h
        · exact absurd (of_decide_eq_true h).symm hT.1
      have hb' : b = ' ' := by
        rcases Bool.or_eq_true_iff.mp hb with h | h
        · exact of_decide_eq_true h
        · rw [List.mem_cons, not_or] at hT
          exact absurd (of_decide_eq_true h).symm hT.2.1
      exact absurd ⟨ha', hb'⟩ (List.chain'_cons.mp hDS).1
  | case5 a b r ha hb ih =>
      intro hT hDS
      rw [List.mem_cons, not_or] at hT
      have ha' : a = ' ' := by
        rcases Bool.or_eq_true_iff.mp ha with h | h
        · exact of_decide_eq_true h
        · exact absurd (of_decide_eq_true h).symm hT.1
      rw [collapseSpaceTab, if_pos ha, if_neg hb, ha']
      exact congrArg _ (ih hT.2 (List.chain'_cons.mp hDS).2)
  | case6 a b r ha ih =>
      intro hT hDS
      rw [List.mem_cons, not_or] at hT
      rw [collapseSpaceTab, if_neg ha]
      exact congrArg _ (ih hT.2 (List.chain'_cons.mp hDS).2)

theorem newlineFix_cons_nl_sp (r : List Char) :
    newlineFix ('\n' :: ' ' :: r) = '\n' :: newlineFix r := rfl

theorem newlineFix_cons_sp_nl_sp (r : List Char) :
    newlineFix (' ' :: '\n' :: ' ' :: r) = '\n' :: newlineFix r := rfl

theorem newlineFix_cons_nl (r : List Char) (h : r.head? ≠ some ' ') :
    newlineFix ('\n' :: r) = '\n' :: newlineFix r := by
  rw [newlineFix.eq_def]
  split <;> rename_i heq <;> simp_all
  rename_i hcne hx
  exact hcne heq.1.symm

theorem newlineFix_cons_sp_nl (r : List Char) (h : r.head? ≠ some ' ') :
    newlineFix (' ' :: '\n' :: r) = '\n' :: newlineFix r := by
  rw [newlineFix.eq_def]
  split <;> rename_i heq <;> simp_all
  rename_i hcne hx
  exact hx r heq.1.symm heq.2.symm

theorem newlineFix_cons_other (c : Char) (r : List Char) (hc : c ≠ '\n')
    (hcsp : c = ' ' → r.head? ≠ some '\n') :
    newlineFix (c :: r) = c :: newlineFix r := by
  rw [newlineFix.eq_def]
  split <;> rename_i heq <;> simp_all

theorem head_ne_of_no_sp {r : List Char}
    (h : ∀ (r1 : List Char), r = ' ' :: r1 → False) : r.head? ≠ some ' ' := by
  cases r with
  | nil => simp
  | cons x xs =>
      intro hx
      rw [List.head?_cons, Option.some_inj] at hx
      exact h xs (by rw [hx])

theorem mem_newlineFix :
    ∀ {l : List Char} {c : Char}, c ∈ newlineFix l → c = '\n' ∨ c ∈ l := by
  intro l
  induction l using newlineFix.induct with
  | case1 => intro c h; simp [newlineFix] at h
  | case2 r ih =>
      intro c h
      rw [newlineFix_cons_nl_sp] at h
      rcases List.mem_cons.mp h with rfl | h
      · exact Or.inl rfl
      · rcases ih h with h | h
        · exact Or.inl h
        · right; simp [h]
  | case3 r hr ih =>
      intro c h
      rw [newlineFix_cons_nl r (head_ne_of_no_sp hr)] at h
      rcases List.mem_cons.mp h with rfl | h
      · exact Or.inl rfl
      · rcases ih h with h | h
        · exact Or.inl h
        · right; simp [h]
  | case4 r ih =>
      intro c h
      rw [newlineFix_cons_sp_nl_sp] at h
      rcases List.mem_cons.mp h with rfl | h
      · exact Or.inl rfl
      · rcases ih h with h | h
        · exact Or.inl h
        · right; simp [h]
  | case5 r hr ih =>
      intro c h
      rw [newlineFix_cons_sp_nl r (head_ne_of_no_sp hr)] at h
      rcases List.mem_cons.mp h with rfl | h
      · exact Or.inl rfl
      · rcases ih h with h | h
        · exact Or.inl h
        · right; simp [h]
  | case6 c0 r h1 h2 h3 h4 ih =>
      intro c h
      have hcsp : c0 = ' ' → r.head? ≠ some '\n' := by
        intro hc0 hx
        cases r with
        | nil => simp at hx
        | cons y ys =>
            rw [List.head?_cons, Option.some_inj] at hx
            exact h4 ys hc0 (by rw [hx])
      rw [newlineFix_cons_other c0 r (fun hc0 => h2 hc0) hcsp] at h
      rcases List.mem_cons.mp h with rfl | h
      · right; exact List.mem_cons_self _ _
      · rcases ih h with h | h
        · exact Or.inl h
        · right; exact List.mem_cons_of_mem _ h

theorem head_newlineFix :
    ∀ {l : List Char} {c : Char}, (newlineFix l).head? = some c →
      l.head? = some c ∨
      (c = '\n' ∧ ∃ d, l.head? = some d ∧ (d = '\n' ∨ d = ' ')) := by
  intro l c
  induction l using newlineFix.induct with
  | case1 => intro h; simp [newlineFix] at h
  | case2 r ih =>
      intro h
      rw [newlineFix_cons_nl_sp, List.head?_cons, Option.some_inj] at h
      exact Or.inr ⟨h.symm, '\n', rfl, Or.inl rfl⟩
  | case3 r hr ih =>
      intro h
      rw [newlineFix_cons_nl r (head_ne_of_no_sp hr), List.head?_cons,
        Option.some_inj] at h
      subst h
      exact Or.inl rfl
  | case4 r ih =>
      intro h
      rw [newlineFix_cons_sp_nl_sp, List.head?_cons, Option.some_inj] at h
      exact Or.inr ⟨h.symm, ' ', rfl, Or.inr rfl⟩
  | case5 r hr ih =>
      intro h
      rw [newlineFix_cons_sp_nl r (head_ne_of_no_sp hr), List.head?_cons,
        Option.some_inj] at h
      exact Or.inr ⟨h.symm, ' ', rfl, Or.inr rfl⟩
  | case6 c0 r h1 h2 h3 h4 ih =>
      intro h
      have hcsp : c0 = ' ' → r.head? ≠ some '\n' := by
        intro hc0 hx
        cases r with
        | nil => simp at hx
        | cons y ys =>
            rw [List.head?_cons, Option.some_inj] at hx
            exact h4 ys hc0 (by rw [hx])
      rw [newlineFix_cons_other c0 r (fun hc0 => h2 hc0) hcsp,
        List.head?_cons, Option.some_inj] at h
      subst h
      exact Or.inl rfl

theorem newlineFix_noTwoSpaces :
    ∀ {l : List Char}, l.Chain' (fun a b => ¬(a = ' ' ∧ b = ' ')) →
      (newlineFix l).Chain' (fun a b => ¬(a = ' ' ∧ b = ' ')) := by
  intro l
  induction l using newlineFix.induct with
  | case1 => intro _; simp [newlineFix]
  | case2 r ih =>
      intro h
      rw [newlineFix_cons_nl_sp, List.chain'_cons']
      refine ⟨?_, ih h.tail.tail⟩
      rintro b - ⟨hnl, -⟩
      exact absurd hnl (by decide)
  | case3 r hr ih =>
      intro h
      rw [newlineFix_cons_nl r (head_ne_of_no_sp hr), List.chain'_cons']
      refine ⟨?_, ih h.tail⟩
      rintro b - ⟨hnl, -⟩
      exact absurd hnl (by decide)
  | case4 r ih =>
      intro h
      rw [newlineFix_cons_sp_nl_sp, List.chain'_cons']
      refine ⟨?_, ih h.tail.tail.tail⟩
      rintro b - ⟨hnl, -⟩
      exact absurd hnl (by decide)
  | case5 r hr ih =>
      intro h
      rw [newlineFix_cons_sp_nl r (head_ne_of_no_sp hr), List.chain'_cons']
      refine ⟨?_, ih h.tail.tail⟩
      rintro b - ⟨hnl, -⟩
      exact absurd hnl (by decide)
  | case6 c0 r h1 h2 h3 h4 ih =>
      intro h
      have hcsp : c0 = ' ' → r.head? ≠ some '\n' := by
        intro hc0 hx
        cases r with
        | nil => simp at hx
        | cons y ys =>
            rw [List.head?_cons, Option.some_inj] at hx
            exact h4 ys hc0 (by rw [hx])
      rw [newlineFix_cons_other c0 r (fun hc0 => h2 hc0) hcsp, List.chain'_cons']
      have hcc := List.chain'_cons'.mp h
      refine ⟨?_, ih hcc.2⟩
      rintro b hb ⟨rfl, rfl⟩
      rcases head_newlineFix hb with hb | ⟨hb, -⟩
      · exact hcc.1 ' ' hb ⟨rfl, rfl⟩
      · exact absurd hb (by decide)

theorem newlineFix_noSpaceNewline :
    ∀ {l : List Char}, l.Chain' (fun a b => ¬(a = ' ' ∧ b = ' ')) →
      (newlineFix l).Chain'
        (fun a b => ¬((a = ' ' ∧ b = '\n') ∨ (a = '\n' ∧ b = ' '))) := by
  intro l
  induction l using newlineFix.induct with
  | case1 => intro _; simp [newlineFix]
  | case2 r ih =>
      intro h
      rw [newlineFix_cons_nl_sp, List.chain'_cons']
      refine ⟨?_, ih h.tail.tail⟩
      rintro b hb (⟨hnl, -⟩ | ⟨-, rfl⟩)
      · exact absurd hnl (by decide)
      · rcases head_newlineFix hb with hb | ⟨hb, -⟩
        · have := (List.chain'_cons'.mp h.tail).1 ' ' hb
          exact this ⟨rfl, rfl⟩
        · exact absurd hb (by decide)
  | case3 r hr ih =>
      intro h
      rw [newlineFix_cons_nl r (head_ne_of_no_sp hr), List.chain'_cons']
      refine ⟨?_, ih h.tail⟩
      rintro b hb (⟨hnl, -⟩ | ⟨-, rfl⟩)
      · exact absurd hnl (by decide)
      · rcases head_newlineFix hb with hb | ⟨hb, -⟩
        · exact head_ne_of_no_sp hr hb
        · exact absurd hb (by decide)
  | case4 r ih =>
      intro h
      rw [newlineFix_cons_sp_nl_sp, List.chain'_cons']
      refine ⟨?_, ih h.tail.tail.tail⟩
      rintro b hb (⟨hnl, -⟩ | ⟨-, rfl⟩)
      · exact absurd hnl (by decide)
      · rcases head_newlineFix hb with hb | ⟨hb, -⟩
        · have := (List.chain'_cons'.mp h.tail.tail).1 ' ' hb
          exact this ⟨rfl, rfl⟩
        · exact absurd hb (by decide)
  | case5 r hr ih =>
      intro h
      rw [newlineFix_cons_sp_nl r (head_ne_of_no_sp hr), List.chain'_cons']
      refine ⟨?_, ih h.tail.tail⟩
      rintro b hb (⟨hnl, -⟩ | ⟨-, rfl⟩)
      · exact absurd hnl (by decide)
      · rcases head_newlineFix hb with hb | ⟨hb, -⟩
        · exact head_ne_of_no_sp hr hb
        · exact absurd hb (by decide)
  | case6 c0 r h1 h2 h3 h4 ih =>
      intro h
      have hcsp : c0 = ' ' → r.head? ≠ some '\n' := by
        intro hc0 hx
        cases r with
        | nil => simp at hx
        | cons y ys =>
            rw [List.head?_cons, Option.some_inj] at hx
            exact h4 ys hc0 (by rw [hx])
      rw [newlineFix_cons_other c0 r (fun hc0 => h2 hc0) hcsp, List.chain'_cons']
      have hcc := List.chain'_cons'.mp h
      refine ⟨?_, ih hcc.2⟩
      rintro b hb (⟨rfl, rfl⟩ | ⟨hc0, -⟩)
      · rcases head_newlineFix hb with hb | ⟨-, d, hd, hd2⟩
        · exact hcsp rfl hb
        · rcases hd2 with rfl | rfl
          · exact hcsp rfl hd
          · exact hcc.1 ' ' hd ⟨rfl, rfl⟩
      · exact h2 hc0

theorem newlineFix_eq_self :
    ∀ {l : List Char},
      l.Chain' (fun a b => ¬((a = ' ' ∧ b = '\n') ∨ (a = '\n' ∧ b = ' '))) →
      newlineFix l = l := by
  intro l
  induction l using newlineFix.induct with
  | case1 => intro _; rfl
  | case2 r ih =>
      intro h
      exact absurd (Or.inr ⟨rfl, rfl⟩) (List.chain'_cons.mp h).1
  | case3 r hr ih =>
      intro h
      rw [newlineFix_cons_nl r (head_ne_of_no_sp hr), ih h.tail]
  | case4 r ih =>
      intro h
      exact absurd (Or.inl ⟨rfl, rfl⟩) (List.chain'_cons.mp h).1
  | case5 r hr ih =>
      intro h
      exact absurd (Or.inl ⟨rfl, rfl⟩) (List.chain'_cons.mp h).1
  | case6 c0 r h1 h2 h3 h4 ih =>
      intro h
      have hcsp : c0 = ' ' → r.head? ≠ some '\n' := by
        intro hc0 hx
        cases r with
        | nil => simp at hx
        | cons y ys =>
            rw [List.head?_cons, Option.some_inj] at hx
            exact h4 ys hc0 (by rw [hx])
      rw [newlineFix_cons_other c0 r (fun hc0 => h2 hc0) hcsp, ih h.tail]

theorem stripEnds_within (l : List Char) : stripEnds l <:+: l := by
  have h1 : stripEnds l <+: l.dropWhile isPyWS := by
    rw [stripEnds, ← List.reverse_suffix]
    simpa using List.dropWhile_suffix (l := (l.dropWhile isPyWS).reverse) isPyWS
  have h2 : l.dropWhile isPyWS <:+ l := List.dropWhile_suffix _
  exact h1.isInfix.trans h2.isInfix

theorem stripEnds_head_not_ws {l : List Char} {c : Char}
    (h : (stripEnds l).head? = some c) : isPyWS c = false := by
  rw [stripEnds] at h
  set r := (l.dropWhile isPyWS).reverse.dropWhile isPyWS with hr
  have hpre : r.reverse <+: l.dropWhile isPyWS := by
    rw [← List.reverse_suffix]
    simpa [hr] using List.dropWhile_suffix (l := (l.dropWhile isPyWS).reverse) isPyWS
  rcases hpre with ⟨u, hu⟩
  have : (l.dropWhile isPyWS).head? = some c := by
    rw [← hu, List.head?_append, h]
    rfl
  exact dropWhile_head_false this

theorem stripEnds_getLast_not_ws {l : List Char} {c : Char}
    (h : (stripEnds l).getLast? = some c) : isPyWS c = false := by
  rw [stripEnds, List.getLast?_reverse] at h
  exact dropWhile_head_false h

theorem dropWhile_eq_self_of_head {p : Char → Bool} {l : List Char}
    (h : ∀ c, l.head? = some c → p c = false) : l.dropWhile p = l := by
  cases l with
  | nil => rfl
  | cons a r =>
      rw [List.dropWhile_cons, if_neg]
      rw [h a rfl]
      simp

theorem stripEnds_eq_self {l : List Char}
    (h1 : ∀ c, l.head? = some c → isPyWS c = false)
    (h2 : ∀ c, l.getLast? = some c → isPyWS c = false) : stripEnds l = l := by
  rw [stripEnds, dropWhile_eq_self_of_head h1, dropWhile_eq_self_of_head
    (by intro c hc; rw [List.head?_reverse] at hc; exact h2 c hc), List.reverse_reverse]

theorem normalizeL_no_nbsp (l : List Char) : nbspChar ∉ normalizeL l := by
  intro hmem
  have h1 : nbspChar ∈ newlineFix (collapseSpaceTab (nbspToSpace l)) :=
    (stripEnds_within _).mem hmem
  rcases mem_newlineFix h1 with h | h
  · exact absurd h (by decide)
  · rcases mem_collapseSpaceTab h with h | h
    · exact absurd h (by decide)
    · exact mem_nbspToSpace h.1 rfl

theorem normalizeL_no_tab (l : List Char) : '\t' ∉ normalizeL l := by
  intro hmem
  have h1 : '\t' ∈ newlineFix (collapseSpaceTab (nbspToSpace l)) :=
    (stripEnds_within _).mem hmem
  rcases mem_newlineFix h1 with h | h
  · exact absurd h (by decide)
  · rcases mem_collapseSpaceTab h with h | h
    · exact absurd h (by decide)
    · exact absurd h.2 (by simp [isSpaceTab])

theorem normalizeL_noTwoSpaces (l : List Char) :
    (normalizeL l).Chain' (fun a b => ¬(a = ' ' ∧ b = ' ')) :=
  List.Chain'.infix (newlineFix_noTwoSpaces (collapseSpaceTab_noTwoSpaces _))
    (stripEnds_within _)

theorem normalizeL_noSpaceNewline (l : List Char) :
    (normalizeL l).Chain'
      (fun a b => ¬((a = ' ' ∧ b = '\n') ∨ (a = '\n' ∧ b = ' '))) :=
  List.Chain'.infix (newlineFix_noSpaceNewline (collapseSpaceTab_noTwoSpaces _))
    (stripEnds_within _)

theorem normalizeL_idem (l : List Char) :
    normalizeL (normalizeL l) = normalizeL l := by
  have e1 : nbspToSpace (normalizeL l) = normalizeL l :=
    nbspToSpace_eq_self (normalizeL_no_nbsp l)
  have e2 : collapseSpaceTab (normalizeL l) = normalizeL l :=
    collapseSpaceTab_eq_self (normalizeL_no_tab l) (normalizeL_noTwoSpaces l)
  have e3 : newlineFix (normalizeL l) = normalizeL l :=
    newlineFix_eq_self (normalizeL_noSpaceNewline l)
  have e4 : stripEnds (normalizeL l) = normalizeL l :=
    stripEnds_eq_self (fun c hc => stripEnds_head_not_ws hc)
      (fun c hc => stripEnds_getLast_not_ws hc)
  calc normalizeL (normalizeL l)
      = stripEnds (newlineFix (collapseSpaceTab (nbspToSpace (normalizeL l)))) := rfl
    _ = normalizeL l := by rw [e1, e2, e3, e4]

/-- C7: the whitespace-normalization pass (`CorrectionEngine.normalize`,
identical to the legacy `normalize`) is idempotent:
`normalize(normalize(t)) == normalize(t)` for every text. -/
theorem C7_normalize_idempotent (t : String) :
    normalize (normalize t) = normalize t :=
  congrArg String.mk (normalizeL_idem t.data)

/-! ## C8: apply_edits replaces exactly the listed spans -/

theorem insertDesc_perm (acc : List TextEdit) (e : TextEdit) :
    List.Perm (insertDesc acc e) (e :: acc) := by
  induction acc with
  | nil => simp [insertDesc]
  | cons x xs ih =>
      rw [insertDesc]
      split
      · exact (ih.cons x).trans (List.Perm.swap e x xs)
      · exact List.Perm.refl _

theorem foldl_insertDesc_perm (l : List TextEdit) :
    ∀ acc, List.Perm (l.foldl insertDesc acc) (acc ++ l) := by
  induction l with
  | nil => intro acc; simp
  | cons e rest ih =>
      intro acc
      have h1 : List.Perm (rest.foldl insertDesc (insertDesc acc e))
          (insertDesc acc e ++ rest) := ih _
      have h2 : List.Perm (insertDesc acc e ++ rest) ((e :: acc) ++ rest) :=
        (insertDesc_perm acc e).append_right rest
      exact (h1.trans h2).trans List.perm_middle.symm

theorem sortDesc_perm (l : List TextEdit) : List.Perm (sortDesc l) l := by
  simpa using foldl_insertDesc_perm l []

theorem insertDesc_sorted {acc : List TextEdit} (e : TextEdit)
    (h : acc.Sorted (fun a b => b.offset ≤ a.offset)) :
    (insertDesc acc e).Sorted (fun a b => b.offset ≤ a.offset) := by
  induction acc with
  | nil => simp [insertDesc]
  | cons x xs ih =>
      rw [List.sorted_cons] at h
      rw [insertDesc]
      split
      · rename_i hxe
        rw [List.sorted_cons]
        refine ⟨?_, ih h.2⟩
        intro b hb
        rcases List.mem_cons.mp ((insertDesc_perm xs e).mem_iff.mp hb) with rfl | hb
        · exact hxe
        · exact h.1 b hb
      · rename_i hxe
        rw [List.sorted_cons]
        refine ⟨?_, List.sorted_cons.mpr h⟩
        intro b hb
        rcases List.mem_cons.mp hb with rfl | hb
        · exact Nat.le_of_lt (Nat.lt_of_not_le hxe)
        · exact Nat.le_trans (h.1 b hb) (Nat.le_of_lt (Nat.lt_of_not_le hxe))

theorem sortDesc_sorted (l : List TextEdit) :
    (sortDesc l).Sorted (fun a b => b.offset ≤ a.offset) := by
  have main : ∀ acc, acc.Sorted (fun a b => b.offset ≤ a.offset) →
      (l.foldl insertDesc acc).Sorted (fun a b => b.offset ≤ a.offset) := by
    induction l with
    | nil => intro acc hacc; exact hacc
    | cons e rest ih => intro acc hacc; exact ih _ (insertDesc_sorted e hacc)
  exact main [] (by simp)

theorem conflicts_with_eq_false_iff (a b : TextEdit) :
    a.conflicts_with b = false ↔
      (a.offset + a.length ≤ b.offset ∨ b.offset + b.length ≤ a.offset) := by
  simp [TextEdit.conflicts_with]
  omega

theorem spansChain_le {i : Nat} :
    ∀ {es : List TextEdit}, SpansChainFrom i es → ∀ e ∈ es, i ≤ e.offset := by
  intro es
  induction es generalizing i with
  | nil => intro _ e he; simp at he
  | cons a es ih =>
      intro h e he
      rcases h with ⟨hia, hrest⟩
      rcases List.mem_cons.mp he with rfl | he
      · exact hia
      · exact Nat.le_trans (Nat.le_trans hia (Nat.le_add_right _ _)) (ih hrest e he)

theorem spansChain_of_pairwise :
    ∀ {asc : List TextEdit} {i : Nat},
      asc.Pairwise (fun a b => a.conflicts_with b = false ∧ a.offset < b.offset) →
      (∀ e ∈ asc, i ≤ e.offset) → SpansChainFrom i asc := by
  intro asc
  induction asc with
  | nil => intro i _ _; trivial
  | cons e es ih =>
      intro i hp hi
      rcases List.pairwise_cons.mp hp with ⟨hhead, htail⟩
      refine ⟨hi e (List.mem_cons_self _ _), ih htail ?_⟩
      intro f hf
      rcases hhead f hf with ⟨hc, hlt⟩
      rcases (conflicts_with_eq_false_iff _ _).mp hc with h | h
      · exact h
      · exfalso
        omega

theorem renderEdits_append (e : TextEdit) :
    ∀ (asc : List TextEdit) (i : Nat) (t : List Char),
      SpansChainFrom i (asc ++ [e]) → e.offset + e.length ≤ t.length →
      renderEdits (splice t e) i asc = renderEdits t i (asc ++ [e]) := by
  intro asc
  induction asc with
  | nil =>
      intro i t hchain hbound
      rcases hchain with ⟨hie, -⟩
      have hoff : e.offset ≤ t.length := Nat.le_trans (Nat.le_add_right _ _) hbound
      show (splice t e).drop i = renderEdits t i [e]
      rw [splice, renderEdits, renderEdits]
      rw [List.append_assoc, List.drop_append_of_le_length
        (by rw [List.length_take]; omega)]
      rw [List.drop_take]
      exact (List.append_assoc _ _ _).symm
  | cons a asc ih =>
      intro i t hchain hbound
      rcases hchain with ⟨hia, hrest⟩
      have hae : a.offset + a.length ≤ e.offset := by
        have := spansChain_le hrest e (by simp)
        exact this
      have hoff : e.offset ≤ t.length := Nat.le_trans (Nat.le_add_right _ _) hbound
      rw [show (a :: asc) ++ [e] = a :: (asc ++ [e]) from rfl,
        renderEdits, renderEdits]
      have hchunk : ((splice t e).drop i).take (a.offset - i) =
          (t.drop i).take (a.offset - i) := by
        rw [splice, List.append_assoc, List.drop_append_of_le_length
          (by rw [List.length_take]; omega)]
        rw [List.take_append_of_le_length
          (by rw [List.length_drop, List.length_take]; omega)]
        rw [List.drop_take, List.take_take]
        congr 1
        omega
      rw [hchunk, ih _ t hrest hbound]

theorem foldl_splice_eq_render :
    ∀ (des : List TextEdit) (t : List Char),
      des.Pairwise (fun a b => a.conflicts_with b = false ∧ b.offset < a.offset) →
      (∀ f ∈ des, f.offset + f.length ≤ t.length) →
      des.foldl splice t = renderEdits t 0 des.reverse := by
  intro des
  induction des with
  | nil => intro t _ _; simp [renderEdits]
  | cons e rest ih =>
      intro t hp hb
      rcases List.pairwise_cons.mp hp with ⟨hhead, htail⟩
      have hofft : e.offset + e.length ≤ t.length := hb e (List.mem_cons_self _ _)
      have hofft' : e.offset ≤ t.length := Nat.le_trans (Nat.le_add_right _ _) hofft
      have hsplice_len : e.offset ≤ (splice t e).length := by
        rw [splice]
        simp [List.length_take, List.length_drop]
        omega
      have hb' : ∀ f ∈ rest, f.offset + f.length ≤ (splice t e).length := by
        intro f hf
        rcases hhead f hf with ⟨hc, hlt⟩
        have hend : f.offset + f.length ≤ e.offset := by
          rcases (conflicts_with_eq_false_iff _ _).mp hc with h | h
          · omega
          · exact h
        exact Nat.le_trans hend hsplice_len
      have step : (e :: rest).foldl splice t = rest.foldl splice (splice t e) := rfl
      rw [step, ih (splice t e) htail hb']
      have hpairw : (rest.reverse ++ [e]).Pairwise
          (fun a b => a.conflicts_with b = false ∧ a.offset < b.offset) := by
        rw [List.pairwise_append]
        refine ⟨List.pairwise_reverse.mpr ?_, by simp, ?_⟩
        · exact htail.imp fun {a b} h => ⟨by rw [conflicts_with_comm]; exact h.1, h.2⟩
        · intro a ha b hb2
          rw [List.mem_singleton] at hb2
          subst hb2
          rcases hhead a (List.mem_reverse.mp ha) with ⟨hc, hlt⟩
          exact ⟨by rw [conflicts_with_comm]; exact hc, hlt⟩
      have hchain : SpansChainFrom 0 (rest.reverse ++ [e]) :=
        spansChain_of_pairwise hpairw (by intro f _; exact Nat.zero_le _)
      rw [renderEdits_append e rest.reverse 0 t hchain hofft]
      rw [List.reverse_cons]

/-- C8: `apply_edits` sorts by descending offset and splices each
replacement in that order; for pairwise non-overlapping edits with distinct
offsets, each valid against `t`, the result replaces exactly each edit's
span with its replacement (`renderEdits` over the ascending span order) and
does not depend on the order of the input list. -/
theorem C8_apply_edits_replaces_spans (t : String) (edits : List TextEdit)
    (hpw : edits.Pairwise
      (fun a b => a.conflicts_with b = false ∧ a.offset ≠ b.offset))
    (hval : ∀ e ∈ edits, ValidFor t.data e) :
    apply_edits t.data edits = renderEdits t.data 0 (sortAsc edits) ∧
    (∀ edits2, List.Perm edits2 edits →
      apply_edits t.data edits2 = apply_edits t.data edits) := by
  have hsym : ∀ {x y : TextEdit},
      (x.conflicts_with y = false ∧ x.offset ≠ y.offset) →
      (y.conflicts_with x = false ∧ y.offset ≠ x.offset) := by
    rintro x y ⟨h1, h2⟩
    exact ⟨by rw [conflicts_with_comm]; exact h1, h2.symm⟩
  haveI : IsAntisymm TextEdit (fun a b => a.offset < b.offset) :=
    ⟨fun a b h1 h2 => absurd h1 (by omega)⟩
  haveI : IsAntisymm TextEdit (fun a b => b.offset < a.offset) :=
    ⟨fun a b h1 h2 => absurd h1 (by omega)⟩
  have sortedDescStrict : ∀ (l : List TextEdit),
      l.Pairwise (fun a b => a.conflicts_with b = false ∧ a.offset ≠ b.offset) →
      (sortDesc l).Pairwise
        (fun a b => a.conflicts_with b = false ∧ b.offset < a.offset) := by
    intro l hl
    have h1 : (sortDesc l).Pairwise
        (fun a b => a.conflicts_with b = false ∧ a.offset ≠ b.offset) :=
      hl.perm (sortDesc_perm l).symm hsym
    have h2 := sortDesc_sorted l
    exact (h1.and h2).imp fun {a b} h => ⟨h.1.1, by
      rcases h with ⟨⟨-, hne⟩, hle⟩
      omega⟩
  rcases edits with - | ⟨e0, erest⟩
  · refine ⟨by simp [apply_edits, sortAsc, renderEdits], ?_⟩
    intro edits2 hperm
    rw [List.Perm.eq_nil hperm]
  · set edits := e0 :: erest with hedits
    have hdesc := sortedDescStrict edits hpw
    have hbounds : ∀ f ∈ sortDesc edits, f.offset + f.length ≤ t.data.length := by
      intro f hf
      exact (hval f ((sortDesc_perm edits).mem_iff.mp hf)).1
    have hmain : apply_edits t.data edits =
        renderEdits t.data 0 (sortDesc edits).reverse := by
      show (sortDesc edits).foldl splice t.data = _
      exact foldl_splice_eq_render (sortDesc edits) t.data hdesc hbounds
    have hrev_sorted : ((sortDesc edits).reverse).Sorted
        (fun a b => a.offset < b.offset) := by
      rw [List.Sorted, List.pairwise_reverse]
      exact hdesc.imp fun {a b} h => h.2
    have hasc_sorted : (sortAsc edits).Sorted (fun a b => a.offset < b.offset) := by
      have h1 : (sortAsc edits).Pairwise
          (fun a b => a.conflicts_with b = false ∧ a.offset ≠ b.offset) :=
        hpw.perm (sortAsc_perm edits).symm hsym
      exact ((sortAsc_sorted edits).and h1).imp fun {a b} h => by
        rcases h with ⟨hle, -, hne⟩
        omega
    have heq : (sortDesc edits).reverse = sortAsc edits :=
      List.eq_of_perm_of_sorted
        (((List.reverse_perm _).trans (sortDesc_perm edits)).trans
          (sortAsc_perm edits).symm)
        hrev_sorted hasc_sorted
    refine ⟨by rw [hmain, heq], ?_⟩
    intro edits2 hperm
    rcases edits2 with - | ⟨f0, frest⟩
    · exact absurd hperm.symm (by simp [hedits])
    · have hpw2 : (f0 :: frest).Pairwise
          (fun a b => a.conflicts_with b = false ∧ a.offset ≠ b.offset) :=
        hpw.perm hperm.symm hsym
      have hsorted1 : (sortDesc (f0 :: frest)).Sorted
          (fun a b => b.offset < a.offset) :=
        (sortedDescStrict _ hpw2).imp fun {a b} h => h.2
      have hsorted2 : (sortDesc edits).Sorted (fun a b => b.offset < a.offset) :=
        hdesc.imp fun {a b} h => h.2
      have heq2 : sortDesc (f0 :: frest) = sortDesc edits :=
        List.eq_of_perm_of_sorted
          (((sortDesc_perm _).trans hperm).trans (sortDesc_perm edits).symm)
          hsorted1 hsorted2
      show (sortDesc (f0 :: frest)).foldl splice t.data =
        (sortDesc edits).foldl splice t.data
      rw [heq2]

theorem C8_apply_edits_replaces_spans_witness :
    apply_edits ("Hello world test".data)
        [⟨12, 4, "test", "demo", "", ""⟩, ⟨0, 5, "Hello", "Hi", "", ""⟩] =
      renderEdits ("Hello world test".data) 0
        (sortAsc [⟨12, 4, "test", "demo", "", ""⟩, ⟨0, 5, "Hello", "Hi", "", ""⟩]) :=
  (C8_apply_edits_replaces_spans "Hello world test"
    [⟨12, 4, "test", "demo", "", ""⟩, ⟨0, 5, "Hello", "Hi", "", ""⟩]
    (by decide) (by decide)).1

/-! ## C9: diff coverage -/

theorem allDstSpans_from (src dst : List Char) :
    ∀ (ops : List Opcode) (i j : Nat), opcodesOk src dst i j ops = true →
      (ops.map (dstSideSpan dst)).flatten = dst.drop j := by
  intro ops
  induction ops with
  | nil =>
      intro i j h
      simp only [opcodesOk, Bool.and_eq_true, decide_eq_true_eq] at h
      rw [List.map_nil, List.flatten_nil, h.2, List.drop_length]
  | cons op rest ih =>
      intro i j h
      rcases op with ⟨tag, i1, i2, j1, j2⟩
      rw [List.map_cons, List.flatten_cons]
      cases tag with
      | equal =>
          simp only [opcodesOk, Bool.and_eq_true, decide_eq_true_eq] at h
          obtain ⟨⟨⟨⟨⟨h1, h2⟩, h3⟩, h4⟩, htag⟩, h5⟩ := h
          rw [ih i2 j2 h5]
          have hdrop : dst.drop j2 = (dst.drop j).drop (j2 - j) := by
            rw [List.drop_drop]; congr 1; omega
          rw [show dstSideSpan dst ⟨.equal, i1, i2, j1, j2⟩ =
            sliceL dst j1 j2 from rfl, sliceL, h2, hdrop]
          exact List.take_append_drop _ _
      | insert =>
          simp only [opcodesOk, Bool.and_eq_true, decide_eq_true_eq] at h
          obtain ⟨⟨⟨⟨⟨h1, h2⟩, h3⟩, h4⟩, htag⟩, h5⟩ := h
          rw [ih i2 j2 h5]
          have hdrop : dst.drop j2 = (dst.drop j).drop (j2 - j) := by
            rw [List.drop_drop]; congr 1; omega
          rw [show dstSideSpan dst ⟨.insert, i1, i2, j1, j2⟩ =
            sliceL dst j1 j2 from rfl, sliceL, h2, hdrop]
          exact List.take_append_drop _ _
      | replace =>
          simp only [opcodesOk, Bool.and_eq_true, decide_eq_true_eq] at h
          obtain ⟨⟨⟨⟨⟨h1, h2⟩, h3⟩, h4⟩, -⟩, h5⟩ := h
          rw [ih i2 j2 h5]
          have hdrop : dst.drop j2 = (dst.drop j).drop (j2 - j) := by
            rw [List.drop_drop]; congr 1; omega
          rw [show dstSideSpan dst ⟨.replace, i1, i2, j1, j2⟩ =
            sliceL dst j1 j2 from rfl, sliceL, h2, hdrop]
          exact List.take_append_drop _ _
      | delete =>
          simp only [opcodesOk, Bool.and_eq_true, decide_eq_true_eq] at h
          obtain ⟨⟨⟨⟨⟨h1, h2⟩, h3⟩, h4⟩, htag⟩, h5⟩ := h
          rw [ih i2 j2 h5]
          rw [show dstSideSpan dst ⟨.delete, i1, i2, j1, j2⟩ = [] from rfl]
          rw [List.nil_append, ← htag, h2]

theorem allSrcSpans_from (src dst : List Char) :
    ∀ (ops : List Opcode) (i j : Nat), opcodesOk src dst i j ops = true →
      (ops.map (srcSideSpan src dst)).flatten = src.drop i := by
  intro ops
  induction ops with
  | nil =>
      intro i j h
      simp only [opcodesOk, Bool.and_eq_true, decide_eq_true_eq] at h
      rw [List.map_nil, List.flatten_nil, h.1, List.drop_length]
  | cons op rest ih =>
      intro i j h
      rcases op with ⟨tag, i1, i2, j1, j2⟩
      rw [List.map_cons, List.flatten_cons]
      cases tag with
      | equal =>
          simp only [opcodesOk, Bool.and_eq_true, decide_eq_true_eq] at h
          obtain ⟨⟨⟨⟨⟨h1, h2⟩, h3⟩, h4⟩, htag⟩, h5⟩ := h
          rw [ih i2 j2 h5]
          have hdrop : src.drop i2 = (src.drop i).drop (i2 - i) := by
            rw [List.drop_drop]; congr 1; omega
          rw [show srcSideSpan src dst ⟨.equal, i1, i2, j1, j2⟩ =
            sliceL dst j1 j2 from rfl, ← htag, sliceL, h1, hdrop]
          exact List.take_append_drop _ _
      | delete =>
          simp only [opcodesOk, Bool.and_eq_true, decide_eq_true_eq] at h
          obtain ⟨⟨⟨⟨⟨h1, h2⟩, h3⟩, h4⟩, htag⟩, h5⟩ := h
          rw [ih i2 j2 h5]
          have hdrop : src.drop i2 = (src.drop i).drop (i2 - i) := by
            rw [List.drop_drop]; congr 1; omega
          rw [show srcSideSpan src dst ⟨.delete, i1, i2, j1, j2⟩ =
            sliceL src i1 i2 from rfl, sliceL, h1, hdrop]
          exact List.take_append_drop _ _
      | replace =>
          simp only [opcodesOk, Bool.and_eq_true, decide_eq_true_eq] at h
          obtain ⟨⟨⟨⟨⟨h1, h2⟩, h3⟩, h4⟩, -⟩, h5⟩ := h
          rw [ih i2 j2 h5]
          have hdrop : src.drop i2 = (src.drop i).drop (i2 - i) := by
            rw [List.drop_drop]; congr 1; omega
          rw [show srcSideSpan src dst ⟨.replace, i1, i2, j1, j2⟩ =
            sliceL src i1 i2 from rfl, sliceL, h1, hdrop]
          exact List.take_append_drop _ _
      | insert =>
          simp only [opcodesOk, Bool.and_eq_true, decide_eq_true_eq] at h
          obtain ⟨⟨⟨⟨⟨h1, h2⟩, h3⟩, h4⟩, htag⟩, h5⟩ := h
          rw [ih i2 j2 h5]
          rw [show srcSideSpan src dst ⟨.insert, i1, i2, j1, j2⟩ = [] from rfl]
          rw [List.nil_append, ← htag, h1]

/-- C9 counterexample: for `src = "a"`, `dst = "b"`, difflib returns the
single opcode `('replace', 0, 1, 0, 1)` (a valid alignment, first
conjunct).  The spans rendered for 'equal' and 'insert' opcodes concatenate
to `""`, which does not reconstruct the final text `"b"`; the destination
text is only recovered once the insertion half of the replace opcode is
included. -/
theorem C9_counterexample :
    opcodesOk "a".data "b".data 0 0 [⟨.replace, 0, 1, 0, 1⟩] = true ∧
    equalInsertSpans "b".data [⟨.replace, 0, 1, 0, 1⟩] = [] ∧
    "b".data ≠ [] ∧
    allDstSpans "b".data [⟨.replace, 0, 1, 0, 1⟩] = "b".data := by
  refine ⟨by decide, by decide, by decide, by decide⟩

/-- C9 (amended): for every valid opcode alignment of `(original, final)`,
concatenating in order the spans rendered verbatim (equal opcodes) together
with all insertion-marker spans (insert opcodes and the insertion halves of
replace opcodes) reconstructs exactly the final text, and the equal spans
together with all deletion-marker spans (delete opcodes and the deletion
halves of replace opcodes) reconstruct exactly the original text.  Equal
and insert opcodes alone do not suffice when a replace opcode occurs. -/
theorem C9_diff_coverage (src dst : List Char) (ops : List Opcode)
    (h : opcodesOk src dst 0 0 ops = true) :
    allDstSpans dst ops = dst ∧ allSrcSpans src dst ops = src := by
  constructor
  · rw [allDstSpans, allDstSpans_from src dst ops 0 0 h, List.drop_zero]
  · rw [allSrcSpans, allSrcSpans_from src dst ops 0 0 h, List.drop_zero]

theorem C9_diff_coverage_witness :
    allDstSpans ("ab".data) [⟨.equal, 0, 2, 0, 2⟩] = "ab".data :=
  (C9_diff_coverage "ab".data "ab".data [⟨.equal, 0, 2, 0, 2⟩] (by decide)).1

/-! ## Evaluation lemmas for the well-founded scanners -/

theorem unitPass_nil : unitPass [] = [] := by
  rw [unitPass.eq_def]

theorem unitPass_cons_nodigit (c : Char) (r : List Char) (h : c.isDigit = false) :
    unitPass (c :: r) = c :: unitPass r := by
  rw [unitPass.eq_def]
  simp [h]

theorem refPass_nil (pw : Bool) : refPass pw [] = [] := by
  rw [refPass.eq_def]

theorem refPass_cons_prev (c : Char) (r : List Char) :
    refPass true (c :: r) = c :: refPass (isWordChar c) r := by
  rw [refPass.eq_def]
  simp

theorem refPass_cons_nomatch (c : Char) (r : List Char)
    (h : matchRefSub (c :: r) = none) :
    refPass false (c :: r) = c :: refPass (isWordChar c) r := by
  rw [refPass.eq_def]
  simp [h]

/-! ## Blank input: normalize maps whitespace-only text to the empty string -/

theorem nbspToSpace_all_ws {l : List Char} (h : ∀ c ∈ l, isPyWS c = true) :
    ∀ c ∈ nbspToSpace l, isPyWS c = true := by
  intro c hc
  rcases List.mem_map.mp hc with ⟨a, ha, rfl⟩
  split
  · decide
  · exact h a ha

theorem collapseSpaceTab_all_ws {l : List Char} (h : ∀ c ∈ l, isPyWS c = true) :
    ∀ c ∈ collapseSpaceTab l, isPyWS c = true := by
  intro c hc
  rcases mem_collapseSpaceTab hc with rfl | ⟨hc, -⟩
  · decide
  · exact h c hc

theorem newlineFix_all_ws {l : List Char} (h : ∀ c ∈ l, isPyWS c = true) :
    ∀ c ∈ newlineFix l, isPyWS c = true := by
  intro c hc
  rcases mem_newlineFix hc with rfl | hc
  · decide
  · exact h c hc

theorem stripEnds_all_ws {l : List Char} (h : ∀ c ∈ l, isPyWS c = true) :
    stripEnds l = [] := by
  rw [stripEnds, List.dropWhile_eq_nil_iff.mpr h]
  simp

theorem normalizeL_blank {l : List Char} (h : ∀ c ∈ l, isPyWS c = true) :
    normalizeL l = [] := by
  rw [normalizeL]
  exact stripEnds_all_ws (newlineFix_all_ws (collapseSpaceTab_all_ws (nbspToSpace_all_ws h)))

theorem normalize_blank {text : String} (h : isBlank text = true) :
    normalize text = "" := by
  rw [normalize, normalizeL_blank (List.all_eq_true.mp h)]

/-- Typography is computed step by step on the empty string. -/
theorem apply_typography_nil : apply_typography [] = [] := by
  rw [apply_typography]
  rw [show ellipsisFix [] = [] from rfl, show percentAux none [] = [] from rfl,
    unitPass_nil, show numeroAux none [] = [] from rfl, refPass_nil]
  rfl

/-! ## C5: empty / whitespace-only input -/

/-- Typography on the one-character text `"X"`. -/
theorem apply_typography_X : apply_typography ['X'] = ['X'] := by
  rw [apply_typography]
  rw [show ellipsisFix ['X'] = ['X'] from rfl,
    show percentAux none ['X'] = ['X'] from rfl,
    unitPass_cons_nodigit 'X' [] (by decide), unitPass_nil,
    show numeroAux none ['X'] = ['X'] from rfl,
    refPass_cons_nomatch 'X' [] rfl, refPass_nil]
  rfl

/-- C5 counterexample: `CorrectionEngine.correct` does not short-circuit
blank input.  With the repository's own `MockProvider` test double
returning one zero-length insertion, `correct("   ", "legal")` invokes the
provider on the normalized (empty) text and returns non-empty corrected
text and a non-empty edit list. -/
theorem C5_counterexample :
    isBlank "   " = true ∧
    engineCorrect (mockProvider [⟨0, 0, "", "X", "", ""⟩]) "   " EngineMode.legal =
      .ok ("X", [⟨0, 0, "", "X", "", ""⟩]) ∧
    ("X" : String) ≠ "" := by
  refine ⟨by decide, ?_, by decide⟩
  have h1 : normalize "   " = "" := by decide
  rw [engineCorrect, h1]
  show Except.ok ((⟨apply_typography ['X']⟩ : String),
    deduplicate_edits [⟨0, 0, "", "X", "", ""⟩]) = _
  rw [apply_typography_X]
  rfl

/-- C5 (amended): the legacy `correct_text` short-circuits empty or
whitespace-only input, returning empty text (and an empty diff when
requested) for every provider and mode without consulting any external
collaborator; `CorrectionEngine.correct` has no such short-circuit — it
invokes the provider on the normalized empty text — and returns empty text
and an empty edit list only when the provider returns no edits. -/
theorem C5_blank_input_short_circuit (text : String) (h : isBlank text = true) :
    (∀ useOpenai oai ltCheck opsFor mode dt,
      correct_text useOpenai oai ltCheck opsFor text mode dt true = ("", some "") ∧
      correct_text useOpenai oai ltCheck opsFor text mode dt false = ("", none)) ∧
    (∀ mode, engineCorrect (mockProvider []) text mode = .ok ("", [])) := by
  constructor
  · intro useOpenai oai ltCheck opsFor mode dt
    constructor
    · rw [correct_text, if_pos h]
      rfl
    · rw [correct_text, if_pos h]
      rfl
  · intro mode
    rw [engineCorrect, normalize_blank h]
    show Except.ok (_, _) = _
    have h2 : applyEditsStr "" [] = "" := rfl
    rw [h2]
    have h3 : apply_legal_rules "".data = ([], []) := rfl
    cases mode
    · show Except.ok ((⟨apply_typography "".data⟩ : String), deduplicate_edits []) = _
      rw [show "".data = ([] : List Char) from rfl, apply_typography_nil]
      rfl
    · simp only [reduceIte, h3]
      show Except.ok ((⟨apply_typography (⟨([] : List Char)⟩ : String).data⟩ : String),
        deduplicate_edits ([] ++ [])) = _
      rw [show (⟨([] : List Char)⟩ : String).data = ([] : List Char) from rfl,
        apply_typography_nil]
      rfl
    · simp only [reduceIte, h3]
      show Except.ok ((⟨apply_typography (apply_strict_rules (⟨([] : List Char)⟩ : String).data)⟩ : String),
        deduplicate_edits ([] ++ [])) = _
      rw [show (⟨([] : List Char)⟩ : String).data = ([] : List Char) from rfl,
        show apply_strict_rules [] = [] from rfl, apply_typography_nil]
      rfl

theorem C5_blank_input_short_circuit_witness :
    isBlank "  " = true ∧
    engineCorrect (mockProvider []) "  " EngineMode.legal = .ok ("", []) :=
  ⟨by decide, (C5_blank_input_short_circuit "  " (by decide)).2 EngineMode.legal⟩

/-! ## C1: provider failure -/

/-- C1 counterexample: `CorrectionEngine.correct` contains no exception
handler around `self.provider.check(normalized)` (and
`LanguageToolProvider.check` none around `lt.check`), so a provider that
raises makes `correct` raise instead of returning a rule-only result. -/
theorem C1_counterexample :
    engineCorrect (fun _ => .error "LanguageTool connection failed")
      "Првет мир" EngineMode.legal = .error "LanguageTool connection failed" := rfl

/-- C1 (amended): provider failure is soft only in the legacy pipeline:
`apply_languagetool` returns its input unchanged on any LanguageTool
failure, so `correct_text` (fallback path, `useOpenai = false`) produces
exactly the rule-only result — the same output as with a provider that
returns zero edits — for every input, mode and flag combination.
`CorrectionEngine.correct`, by contrast, propagates a provider exception
unchanged. -/
theorem C1_provider_soft_failure :
    (∀ t : List Char, apply_languagetool (fun _ => .error ()) t = t) ∧
    (∀ oai opsFor (text : String) mode dt dv,
      correct_text false oai (fun _ => .error ()) opsFor text mode dt dv =
      correct_text false oai (fun _ => .ok []) opsFor text mode dt dv) ∧
    (∀ (e : String) (text : String) mode,
      engineCorrect (fun _ => .error e) text mode = .error e) := by
  refine ⟨fun t => rfl, ?_, fun e text mode => rfl⟩
  intro oai opsFor text mode dt dv
  have hA : ∀ t : List Char, apply_languagetool (fun _ => .error ()) t = t :=
    fun t => rfl
  have hB : ∀ t : List Char, apply_languagetool (fun _ => .ok []) t = t :=
    fun t => rfl
  simp only [correct_text, hA, hB]

theorem C1_provider_soft_failure_witness :
    engineCorrect (fun _ => .error "timeout") "тест" EngineMode.base =
      .error "timeout" :=
  C1_provider_soft_failure.2.2 "timeout" "тест" EngineMode.base

/-! ## C6: maximum length validation -/

/-- Typography on the two-character text `"aa"`. -/
theorem apply_typography_aa : apply_typography ['a', 'a'] = ['a', 'a'] := by
  rw [apply_typography]
  rw [show ellipsisFix ['a', 'a'] = ['a', 'a'] from rfl,
    show percentAux none ['a', 'a'] = ['a', 'a'] from rfl,
    unitPass_cons_nodigit 'a' ['a'] (by decide),
    unitPass_cons_nodigit 'a' [] (by decide), unitPass_nil,
    show numeroAux none ['a', 'a'] = ['a', 'a'] from rfl,
    refPass_cons_nomatch 'a' ['a'] rfl,
    show isWordChar 'a' = true from rfl, refPass_cons_prev 'a' [],
    refPass_nil]
  rfl

/-- C6 counterexample: `CorrectionEngine.correct` performs no length
validation at all.  With the configured maximum `MAX_TEXT_LEN = 1`, the
two-character input `"aa"` exceeds the maximum, yet `correct` neither
fails nor truncates — it returns the full text. -/
theorem C6_counterexample :
    (1 : Nat) < ("aa" : String).length ∧
    engineCorrect (mockProvider []) "aa" EngineMode.base = .ok ("aa", []) := by
  refine ⟨by decide, ?_⟩
  have h1 : normalize "aa" = "aa" := by decide
  rw [engineCorrect, h1]
  show Except.ok ((⟨apply_typography ['a', 'a']⟩ : String), deduplicate_edits []) = _
  rw [apply_typography_aa]
  rfl

/-- C6 (amended): the length check lives in `correct_text_openai` alone: a
non-blank text longer than `MAX_TEXT_LEN` makes it raise `ValueError`
before any API call (never truncating; a *blank* over-long text is
returned unchanged by the earlier blank-input guard).
`CorrectionEngine.correct` consumes no length limit and, whenever the
provider returns normally, processes the whole text and succeeds no matter
how long the text is. -/
theorem C6_length_validation (llm : String → LegacyMode → Except String String)
    (maxTextLen : Nat) (text : String) (mode : LegacyMode)
    (hlen : maxTextLen < text.length) (hblank : isBlank text = false) :
    correct_text_openai llm maxTextLen text mode = .error .tooLong ∧
    (∀ edits mode2, ∃ r,
      engineCorrect (mockProvider edits) text mode2 = .ok r) := by
  constructor
  · rw [correct_text_openai, if_neg (by rw [hblank]; simp), if_pos hlen]
  · intro edits mode2
    exact ⟨_, rfl⟩

theorem C6_length_validation_witness :
    correct_text_openai (fun _ _ => .ok "") 1 "aa" LegacyMode.min =
      .error .tooLong :=
  (C6_length_validation (fun _ _ => .ok "") 1 "aa" LegacyMode.min
    (by decide) (by decide)).1

end RuCorrector
